import Mathlib

/-!
# CPU scheduler of the multithreaded OS simulation (student.c)

Shallow embedding of the ready queue (`enqueue`, `dequeue`, `is_empty`), the
dispatcher (`schedule`) and the event handlers (`preempt`, `yield`,
`terminate`, `wake_up`) of `src/Process Scheduler/src/src/student.c`.

Modelling conventions
* A `pcb_t *` is an address: `Option Nat`, with `none` for `NULL`.  The memory
  holding the process records is a total map `Nat → pcb_t`.
* The globals `rq`, `current`, `scheduler_algorithm` and `ts` are the fields
  of `Sched`; every function takes the state and returns the new one.
* Dereferencing `NULL` is the fault `null_deref`.
* The only loop (the walk over `next` links in the priority branch of
  `enqueue`) takes a fuel argument and returns the fault `out_of_fuel` when
  the fuel does not suffice.
* The calls to the harness (`context_switch`) and the signals on
  `queue_not_empty` are appended to `Sched.trace`.  The mutexes do not change
  the result of a call that runs alone, and are left out of the handlers;
  where `enqueue` takes and releases `queue_mutex` among its reads and writes
  is recorded by `enqueue_accesses`.
* `call`, `run_calls` and `Reachable` run each handler call alone, from entry
  to return.  Calls that overlap are runs of `step`, which cuts a call where
  `student.c` holds no mutex; `steps_alone` shows that the steps of a call,
  run without interruption, are the call.
* `main` is a function of `argv`; `atoi` is a parameter.
-/

namespace Scheduler

/-- Modelled from the spec: the scheduling states of a process record; the
enumeration is declared in `student.h`, and `student.c` uses these four
constants. -/
inductive process_state_t where
  | PROCESS_READY
  | PROCESS_RUNNING
  | PROCESS_WAITING
  | PROCESS_TERMINATED
deriving DecidableEq, Repr

/-- Modelled from the spec: the discipline selector declared in `student.h`;
`student.c` uses the constants `FCFS`, `RR` and `PR`. -/
inductive sched_algorithm_t where
  | FCFS
  | RR
  | PR
deriving DecidableEq, Repr

/-- Modelled from the spec: the process record of `student.h`, with the three
fields `student.c` reads or writes (`state`, `priority`, `next`). -/
structure pcb_t where
  state : process_state_t
  priority : Int
  next : Option Nat
deriving DecidableEq, Repr

/-- Modelled from the spec: the ready queue record of `student.h`, with the
`head` and `tail` pointers `student.c` uses. -/
structure queue_t where
  head : Option Nat
  tail : Option Nat
deriving DecidableEq, Repr

/-- Observable effects of a call: the hand-off to the harness and the signal
on the condition `queue_not_empty`. -/
inductive Event where
  | context_switch (cpu_id : Nat) (process : Option Nat) (time_slice : Int)
  | cond_signal
deriving DecidableEq, Repr

/-- Ways in which a call does not return a state. -/
inductive Fault where
  | null_deref
  | out_of_fuel
deriving DecidableEq, Repr

/-- The memory of process records together with the globals of `student.c`. -/
structure Sched where
  mem : Nat → pcb_t
  rq : queue_t
  current : Nat → Option Nat
  scheduler_algorithm : sched_algorithm_t
  ts : Int
  trace : List Event

/-- The assignment `p->next = v`. -/
def set_next (mem : Nat → pcb_t) (p : Nat) (v : Option Nat) : Nat → pcb_t :=
  fun q => if q = p then { mem q with next := v } else mem q

/-- The assignment `p->state = v`. -/
def set_state (mem : Nat → pcb_t) (p : Nat) (v : process_state_t) : Nat → pcb_t :=
  fun q => if q = p then { mem q with state := v } else mem q

/-- The assignment `current[cpu_id] = v`. -/
def set_slot (current : Nat → Option Nat) (cpu_id : Nat) (v : Option Nat) :
    Nat → Option Nat :=
  fun c => if c = cpu_id then v else current c

/-- Source `is_empty`: true when both `head` and `tail` are `NULL`. -/
def is_empty (queue : queue_t) : Bool :=
  if queue.head = none ∧ queue.tail = none then true else false

/-- The loop `while (curr->next != NULL && curr->next->priority < pr)
curr = curr->next;` of `enqueue`, one unit of fuel for each evaluation of the
loop condition. -/
def walk (mem : Nat → pcb_t) (pr : Int) : Nat → Nat → Except Fault Nat
  | 0, _ => .error .out_of_fuel
  | fuel + 1, curr =>
    match (mem curr).next with
    | none => .ok curr
    | some n => if (mem n).priority < pr then walk mem pr fuel n else .ok curr

/-- Source `enqueue(rq, process)`.  Both callers dereference `process` before
the call, so it is an address here. -/
def enqueue (fuel : Nat) (process : Nat) (s : Sched) : Except Fault Sched :=
  if s.scheduler_algorithm = .PR then
    if is_empty s.rq then
      .ok { s with rq := { head := some process, tail := some process },
                   trace := s.trace ++ [.cond_signal] }
    else
      match s.rq.head with
      | none => .error .null_deref
      | some h =>
        if (s.mem h).priority > (s.mem process).priority then
          .ok { s with mem := set_next s.mem process (some h),
                       rq := { s.rq with head := some process } }
        else
          match walk s.mem (s.mem process).priority fuel h with
          | .error e => .error e
          | .ok curr =>
            .ok { s with mem := set_next (set_next s.mem process (s.mem curr).next)
                                  curr (some process) }
  else
    if is_empty s.rq then
      .ok { s with rq := { head := some process, tail := some process },
                   trace := s.trace ++ [.cond_signal] }
    else
      match s.rq.tail with
      | none => .error .null_deref
      | some t =>
        .ok { s with mem := set_next s.mem t (some process),
                     rq := { s.rq with tail := (set_next s.mem t (some process) t).next } }

/-- Source `dequeue(rq)`: returns the old head; the removed record keeps its
`next` link. -/
def dequeue (s : Sched) : Except Fault (Option Nat × Sched) :=
  if s.rq.head = s.rq.tail then
    .ok (s.rq.head, { s with rq := { head := none, tail := none } })
  else
    match s.rq.head with
    | none => .error .null_deref
    | some h => .ok (some h, { s with rq := { s.rq with head := (s.mem h).next } })

/-- The body shared by the three dispatching branches of `schedule`:
`deq = dequeue(rq); current[cpu_id] = deq; current[cpu_id]->state =
PROCESS_RUNNING; context_switch(cpu_id, deq, time_slice)`. -/
def dispatch (cpu_id : Nat) (time_slice : Int) (s : Sched) : Except Fault Sched :=
  match dequeue s with
  | .error e => .error e
  | .ok (none, _) => .error .null_deref
  | .ok (some p, s1) =>
    .ok { s1 with current := set_slot s1.current cpu_id (some p),
                  mem := set_state s1.mem p .PROCESS_RUNNING,
                  trace := s1.trace ++ [.context_switch cpu_id (some p) time_slice] }

/-- Source `schedule(cpu_id)`. -/
def schedule (cpu_id : Nat) (s : Sched) : Except Fault Sched :=
  if is_empty s.rq then
    .ok { s with current := set_slot s.current cpu_id none,
                 trace := s.trace ++ [.context_switch cpu_id none (-1)] }
  else if s.scheduler_algorithm = .FCFS then
    dispatch cpu_id (-1) s
  else if s.scheduler_algorithm = .RR then
    dispatch cpu_id s.ts s
  else if s.scheduler_algorithm = .PR then
    dispatch cpu_id (-1) s
  else
    .ok s

/-- Source `preempt(cpu_id)`. -/
def preempt (fuel : Nat) (cpu_id : Nat) (s : Sched) : Except Fault Sched :=
  match s.current cpu_id with
  | none => .error .null_deref
  | some p =>
    match enqueue fuel p { s with mem := set_state s.mem p .PROCESS_READY } with
    | .error e => .error e
    | .ok s1 => schedule cpu_id s1

/-- Source `yield(cpu_id)`. -/
def yield (cpu_id : Nat) (s : Sched) : Except Fault Sched :=
  match s.current cpu_id with
  | none => .error .null_deref
  | some p => schedule cpu_id { s with mem := set_state s.mem p .PROCESS_WAITING }

/-- Source `terminate(cpu_id)`. -/
def terminate (cpu_id : Nat) (s : Sched) : Except Fault Sched :=
  match s.current cpu_id with
  | none => .error .null_deref
  | some p => schedule cpu_id { s with mem := set_state s.mem p .PROCESS_TERMINATED }

/-- Source `wake_up(process)`. -/
def wake_up (fuel : Nat) (process : Option Nat) (s : Sched) : Except Fault Sched :=
  match process with
  | none => .error .null_deref
  | some p => enqueue fuel p { s with mem := set_state s.mem p .PROCESS_READY }

/-- A run of successive `enqueue` calls, in list order. -/
def enqueue_all (fuel : Nat) : List Nat → Sched → Except Fault Sched
  | [], s => .ok s
  | p :: ps, s =>
    match enqueue fuel p s with
    | .error e => .error e
    | .ok s1 => enqueue_all fuel ps s1

/-- A run of `n` successive `dequeue` calls, collecting the returned pointers. -/
def dequeue_n : Nat → Sched → Except Fault (List (Option Nat) × Sched)
  | 0, s => .ok ([], s)
  | n + 1, s =>
    match dequeue s with
    | .error e => .error e
    | .ok (p, s1) =>
      match dequeue_n n s1 with
      | .error e => .error e
      | .ok (ps, s2) => .ok (p :: ps, s2)

/-- Consecutive elements of the list are joined by `next` links. -/
def links (mem : Nat → pcb_t) : List Nat → Prop
  | a :: b :: rest => (mem a).next = some b ∧ links mem (b :: rest)
  | _ => True

/-- The ready queue holds exactly the processes of `l`, in this order: `head`
points at the first, `tail` at the last, the `next` links join neighbours and
no process occurs twice.  Nothing is asked of the `next` link of the last
element. -/
def IsQueue (mem : Nat → pcb_t) (rq : queue_t) (l : List Nat) : Prop :=
  rq.head = l.head? ∧ rq.tail = l.getLast? ∧ links mem l ∧ l.Nodup

/-- The queue record `dequeue` leaves behind when the head is `h`. -/
def rq_without_head (mem : Nat → pcb_t) (rq : queue_t) (h : Nat) : queue_t :=
  if rq.head = rq.tail then { head := none, tail := none }
  else { rq with head := (mem h).next }

/-- A memory in which every record is `st`, has priority `pr a` and a `NULL`
link. -/
def fresh_mem (st : process_state_t) (pr : Nat → Int) : Nat → pcb_t :=
  fun a => { state := st, priority := pr a, next := none }

/-- The state after initialisation: empty ready queue, empty run table. -/
def init_sched (alg : sched_algorithm_t) (ts : Int) (mem : Nat → pcb_t) : Sched :=
  { mem := mem, rq := { head := none, tail := none }, current := fun _ => none,
    scheduler_algorithm := alg, ts := ts, trace := [] }

/-! ## The harness: `idle`, calls and their contract -/

/-- What a call of `idle` that runs alone does: it waits inside
`pthread_cond_wait` and changes nothing, or it returns. -/
inductive idle_result where
  | waiting
  | returned (s : Sched)

/-- Source `idle(cpu_id)`, run alone from entry to return: with the queue
empty the loop `while (is_empty(rq)) pthread_cond_wait(..)` waits; otherwise
the mutex is released and `schedule(cpu_id)` runs.  What other threads can do
between the release of the mutex and `schedule` is in `step`. -/
def idle (cpu_id : Nat) (s : Sched) : Except Fault idle_result :=
  if is_empty s.rq then .ok .waiting
  else
    match schedule cpu_id s with
    | .error e => .error e
    | .ok s2 => .ok (.returned s2)

/-- The five entry points the harness calls. -/
inductive Call where
  | idle (cpu_id : Nat)
  | preempt (cpu_id : Nat)
  | yield (cpu_id : Nat)
  | terminate (cpu_id : Nat)
  | wake_up (process : Nat)
deriving DecidableEq, Repr

/-- Modelled from the spec: the harness contract of §4.3 and §6.  `idle` is
called for a CPU with nothing to run, `preempt`, `yield` and `terminate` for a
CPU whose slot holds a RUNNING process, `wake_up` for a WAITING process. -/
def contract (s : Sched) : Call → Prop
  | .idle c => s.current c = none
  | .preempt c => ∃ p, s.current c = some p ∧ (s.mem p).state = .PROCESS_RUNNING
  | .yield c => ∃ p, s.current c = some p ∧ (s.mem p).state = .PROCESS_RUNNING
  | .terminate c => ∃ p, s.current c = some p ∧ (s.mem p).state = .PROCESS_RUNNING
  | .wake_up p => (s.mem p).state = .PROCESS_WAITING

/-- One handler call, run alone on the state `s`.  An `idle` call that finds
the queue empty waits and leaves the state as it is. -/
def call (fuel : Nat) (s : Sched) : Call → Except Fault Sched
  | .idle c =>
    match idle c s with
    | .error e => .error e
    | .ok .waiting => .ok s
    | .ok (.returned s2) => .ok s2
  | .preempt c => preempt fuel c s
  | .yield c => yield c s
  | .terminate c => terminate c s
  | .wake_up p => wake_up fuel (some p) s

/-- The initial states: empty ready queue, all run-table slots empty; the
process records, the discipline and the quantum are arbitrary. -/
def initial (s : Sched) : Prop :=
  is_empty s.rq = true ∧ ∀ c, s.current c = none

/-- The states reached from `s0` by handler calls that respect the contract,
run one after the other with no two of them overlapping, and return.  Runs
in which calls overlap are those of `run_actions`. -/
inductive Reachable (s0 : Sched) : Sched → Prop where
  | init : Reachable s0 s0
  | step {s s2 : Sched} (c : Call) (fuel : Nat) :
      Reachable s0 s → contract s c → call fuel s c = .ok s2 → Reachable s0 s2

/-- Modelled from the spec: the edges of the process state machine of §4.3. -/
def edge : process_state_t → process_state_t → Bool
  | .PROCESS_READY, .PROCESS_RUNNING => true
  | .PROCESS_RUNNING, .PROCESS_READY => true
  | .PROCESS_RUNNING, .PROCESS_WAITING => true
  | .PROCESS_RUNNING, .PROCESS_TERMINATED => true
  | .PROCESS_WAITING, .PROCESS_READY => true
  | _, _ => false

/-- The list `l` with `p` put right behind the element `c`. -/
def insert_after (c p : Nat) : List Nat → List Nat
  | [] => []
  | a :: rest => a :: (if a = c then p :: rest else insert_after c p rest)

/-- The agreement between containers and states, for every slot but that of
`cpu_id`: the ready queue is a duplicate-free list of READY processes, every
other slot that is not empty holds a RUNNING process, and no process is in two
of the other slots. -/
def InvExcept (cpu_id : Option Nat) (s : Sched) : Prop :=
  ∃ l, IsQueue s.mem s.rq l ∧ (∀ p ∈ l, (s.mem p).state = .PROCESS_READY) ∧
    (∀ c p, some c ≠ cpu_id → s.current c = some p →
      (s.mem p).state = .PROCESS_RUNNING) ∧
    (∀ c d p, some c ≠ cpu_id → some d ≠ cpu_id →
      s.current c = some p → s.current d = some p → c = d)

/-- The agreement between containers and states, for every slot.  It holds
along calls that do not overlap (`reachable_inv`). -/
def Inv (s : Sched) : Prop := InvExcept none s

/-- Decision procedure for `contract`. -/
def contract_ok (s : Sched) : Call → Bool
  | .idle c => s.current c = none
  | .preempt c =>
    match s.current c with
    | none => false
    | some p => (s.mem p).state = .PROCESS_RUNNING
  | .yield c =>
    match s.current c with
    | none => false
    | some p => (s.mem p).state = .PROCESS_RUNNING
  | .terminate c =>
    match s.current c with
    | none => false
    | some p => (s.mem p).state = .PROCESS_RUNNING
  | .wake_up p => (s.mem p).state = .PROCESS_WAITING

/-- A run of handler calls, one after the other; `none` when a call is made
outside the contract or does not return. -/
def run_calls (fuel : Nat) : List Call → Sched → Option Sched
  | [], s => some s
  | c :: cs, s =>
    if contract_ok s c then
      match call fuel s c with
      | .error _ => none
      | .ok s2 => run_calls fuel cs s2
    else none

/-- The start of a Priority run: empty queue, empty run table, every process
WAITING with a `NULL` link, process `a` of priority `a`. -/
def priority_start : Sched :=
  init_sched .PR 0 (fresh_mem .PROCESS_WAITING (fun a => (a : Int)))

/-- Calls of a harness with two CPUs on `priority_start`: processes 2 and 1
become ready and are dispatched on CPU 0 and CPU 1, both yield for I/O, and
both are woken again, process 1 first. -/
def priority_calls : List Call :=
  [.wake_up 2, .wake_up 1, .idle 0, .idle 1, .yield 1, .yield 0, .wake_up 1, .wake_up 2]

/-- The state after `priority_calls`. -/
def priority_reached : Sched :=
  (run_calls 5 priority_calls priority_start).getD priority_start

/-- A Priority run with one CPU: process 5 (priority 5) is RUNNING on CPU 0,
the ready queue is empty and process 1 (priority 1) is WAITING. -/
def priority_one_cpu : Sched :=
  (run_calls 5 [.wake_up 5, .idle 0] priority_start).getD priority_start

/-! ## Command line -/

/-- What `main` has done when it returns or hands over to `start_simulator`:
it printed the usage text and returned -1, or it read outside `argv` or
outside an argument string, or it started the simulator with the discipline
and the quantum it set, passing `argv[1]` on as the number of CPUs. -/
inductive main_result where
  | usage
  | undefined
  | started (scheduler_algorithm : sched_algorithm_t) (ts : Int) (cpus : List Char)
deriving DecidableEq, Repr

/-- The character `a[1]` of a C string: the terminating NUL for a string of
length one, nothing for the empty string, whose index 1 lies behind the
terminator. -/
def char_at_1 : List Char → Option Char
  | [] => none
  | [_] => some (Char.ofNat 0)
  | _ :: c :: _ => some c

/-- Source `main(argc, argv)`, by the value of `argc` (the length of `argv`).
The static `ts` is 0 until it is assigned; `atoi` is the C library function.
* `argc == 1` or `argc > 4`: usage text, return -1;
* `argc == 2`: FCFS;
* `argc == 4`: `argv[2][1]` is compared with `r`, then with `p`; when it is
  neither, `scheduler_algorithm` keeps its first assignment, FCFS;
* `argc == 3` (and `argc == 0`): no test applies, `scheduler_algorithm` keeps
  FCFS, and `argv[1]` is read for the number of CPUs. -/
def main (atoi : List Char → Int) : List (List Char) → main_result
  | [] => .undefined
  | [_] => .usage
  | [_, a1] => .started .FCFS 0 a1
  | [_, a1, _] => .started .FCFS 0 a1
  | [_, a1, a2, a3] =>
    match char_at_1 a2 with
    | none => .undefined
    | some c =>
      if c = 'r' then .started .RR (atoi a3) a1
      else if c = 'p' then .started .PR 0 a1
      else .started .FCFS 0 a1
  | _ :: _ :: _ :: _ :: _ :: _ => .usage

/-! ## Accesses to the shared queue made by `enqueue` -/

/-- The operations on `queue_mutex`, the signal, and the reads and writes of
the queue record and of the `priority` and `next` fields of process records,
in program order.  The reads of the fields of the new process itself are not
listed. -/
inductive Access where
  | lock
  | unlock
  | signal
  | read_head
  | read_tail
  | read_priority (p : Nat)
  | read_next (p : Nat)
  | write_head
  | write_tail
  | write_next (p : Nat)
deriving DecidableEq, Repr

/-- The reads made by `is_empty`: `queue->head`, and `queue->tail` when the
head is `NULL`. -/
def is_empty_accesses (queue : queue_t) : List Access :=
  if queue.head = none then [.read_head, .read_tail] else [.read_head]

/-- The reads made by the loop of `walk`: each evaluation of the condition
reads `curr->next`, and when it is not `NULL` reads it again for
`curr->next->priority`; the body reads `curr->next` once more. -/
def walk_accesses (mem : Nat → pcb_t) (pr : Int) : Nat → Nat → Except Fault (List Access)
  | 0, _ => .error .out_of_fuel
  | fuel + 1, curr =>
    match (mem curr).next with
    | none => .ok [.read_next curr]
    | some n =>
      if (mem n).priority < pr then
        match walk_accesses mem pr fuel n with
        | .error e => .error e
        | .ok log =>
          .ok ([.read_next curr, .read_next curr, .read_priority n, .read_next curr] ++ log)
      else .ok [.read_next curr, .read_next curr, .read_priority n]

/-- The accesses of one call of source `enqueue`, in program order, branch by
branch as in `enqueue`. -/
def enqueue_accesses (fuel : Nat) (process : Nat) (s : Sched) : Except Fault (List Access) :=
  if s.scheduler_algorithm = .PR then
    if is_empty s.rq then
      .ok (is_empty_accesses s.rq ++ [.lock, .write_head, .write_tail, .signal, .unlock])
    else
      match s.rq.head with
      | none => .error .null_deref
      | some h =>
        if (s.mem h).priority > (s.mem process).priority then
          .ok (is_empty_accesses s.rq ++ [.read_head, .read_priority h,
            .lock, .read_head, .write_next process, .write_head, .unlock])
        else
          match walk s.mem (s.mem process).priority fuel h with
          | .error e => .error e
          | .ok curr =>
            match walk_accesses s.mem (s.mem process).priority fuel h with
            | .error e => .error e
            | .ok log =>
              .ok (is_empty_accesses s.rq ++ [.read_head, .read_priority h, .read_head] ++ log
                ++ [.lock, .read_next curr, .write_next process, .write_next curr, .unlock])
  else
    if is_empty s.rq then
      .ok (is_empty_accesses s.rq ++ [.lock, .write_head, .write_tail, .signal, .unlock])
    else
      match s.rq.tail with
      | none => .error .null_deref
      | some t =>
        .ok (is_empty_accesses s.rq ++ [.lock, .read_tail, .write_next t,
          .read_tail, .read_next t, .write_tail, .unlock])

/-- Whether the access is a read of the queue record or of a process record. -/
def is_read : Access → Bool
  | .read_head => true
  | .read_tail => true
  | .read_priority _ => true
  | .read_next _ => true
  | _ => false

/-- Whether every read of the log is made while the mutex is held; `held`
tells whether it is held at the start. -/
def reads_locked : Bool → List Access → Bool
  | _, [] => true
  | _, .lock :: rest => reads_locked true rest
  | _, .unlock :: rest => reads_locked false rest
  | held, a :: rest => (!is_read a || held) && reads_locked held rest

/-! ## Handler calls that overlap

The harness calls the handlers from one thread per CPU and from further
threads for `wake_up`.  A call is cut at the points where `student.c` holds
neither mutex, so that another thread can run there: in `idle` between the
release of `queue_mutex` (l.193) and `schedule` (l.194); in `schedule` after
the test `is_empty(rq)` (l.150), which takes no lock; in `dequeue` after the
reads of `queue->head` and `queue->tail` (l.110-111), made before the lock;
after `dequeue` has returned; and before `context_switch`.  Each stretch
between two cuts is one step, run without interruption, so every run of steps
is a run of the program. -/

/-- Where a thread stands in the handler call it executes.
* `entry c`: the call `c` is made and nothing of it has run (for `idle`: the
  thread is in the loop of l.190-192);
* `schedule_entry`: before the test `is_empty(rq)` of `schedule` (l.150);
* `dequeue_entry`: the test was false; before `removed = queue->head` (l.110);
* `dequeue_locked removed last`: `removed` is read and `last` is the outcome
  of `queue->head == queue->tail` (l.111); before the lock of l.112 or l.117;
* `store deq`: `dequeue` has returned `deq`; before the lock of `current_mutex`;
* `switch deq`: before `context_switch(cpu_id, deq, ..)`;
* `returned`: the thread is not inside a call. -/
inductive Pc where
  | entry (c : Call)
  | schedule_entry (cpu_id : Nat)
  | dequeue_entry (cpu_id : Nat)
  | dequeue_locked (cpu_id : Nat) (removed : Option Nat) (last : Bool)
  | store (cpu_id : Nat) (deq : Option Nat)
  | switch (cpu_id : Nat) (deq : Option Nat)
  | returned
deriving DecidableEq, Repr

/-- One step of a thread: the stretch of `student.c` from its position to the
next cut. -/
def step (fuel : Nat) (s : Sched) : Pc → Except Fault (Sched × Pc)
  | .entry (.idle c) =>
    if is_empty s.rq then .ok (s, .entry (.idle c)) else .ok (s, .schedule_entry c)
  | .entry (.preempt c) =>
    match s.current c with
    | none => .error .null_deref
    | some p =>
      match enqueue fuel p { s with mem := set_state s.mem p .PROCESS_READY } with
      | .error e => .error e
      | .ok s1 => .ok (s1, .schedule_entry c)
  | .entry (.yield c) =>
    match s.current c with
    | none => .error .null_deref
    | some p => .ok ({ s with mem := set_state s.mem p .PROCESS_WAITING }, .schedule_entry c)
  | .entry (.terminate c) =>
    match s.current c with
    | none => .error .null_deref
    | some p =>
      .ok ({ s with mem := set_state s.mem p .PROCESS_TERMINATED }, .schedule_entry c)
  | .entry (.wake_up p) =>
    match enqueue fuel p { s with mem := set_state s.mem p .PROCESS_READY } with
    | .error e => .error e
    | .ok s1 => .ok (s1, .returned)
  | .schedule_entry c =>
    if is_empty s.rq then
      .ok ({ s with current := set_slot s.current c none }, .switch c none)
    else .ok (s, .dequeue_entry c)
  | .dequeue_entry c =>
    .ok (s, .dequeue_locked c s.rq.head (decide (s.rq.head = s.rq.tail)))
  | .dequeue_locked c removed last =>
    if last then .ok ({ s with rq := { head := none, tail := none } }, .store c removed)
    else
      match s.rq.head with
      | none => .error .null_deref
      | some h => .ok ({ s with rq := { s.rq with head := (s.mem h).next } }, .store c removed)
  | .store c deq =>
    match deq with
    | none => .error .null_deref
    | some p =>
      .ok ({ s with current := set_slot s.current c (some p),
                    mem := set_state s.mem p .PROCESS_RUNNING }, .switch c (some p))
  | .switch c deq =>
    .ok ({ s with trace := s.trace ++ [.context_switch c deq
            (match deq with
             | none => -1
             | some _ => if s.scheduler_algorithm = .RR then s.ts else -1)] }, .returned)
  | .returned => .ok (s, .returned)

/-- A run of `n` steps of one thread, no other thread running in between. -/
def steps (fuel : Nat) : Nat → Sched → Pc → Except Fault (Sched × Pc)
  | 0, s, pc => .ok (s, pc)
  | n + 1, s, pc =>
    match step fuel s pc with
    | .error e => .error e
    | .ok (s1, pc1) => steps fuel n s1 pc1

/-- The shared state a run of steps ends in. -/
def final_state : Except Fault (Sched × Pc) → Except Fault Sched
  | .error e => .error e
  | .ok (s, _) => .ok s

/-- The shared state and the position of every thread. -/
structure Config where
  s : Sched
  pcs : Nat → Pc

/-- What happens next in a run with several threads: the harness makes the
call `c` on a thread, or a thread takes one step. -/
inductive Action where
  | make (thread : Nat) (c : Call)
  | step (thread : Nat)
deriving DecidableEq, Repr

/-- One action.  A call is made only on a thread that is not inside a call,
and only within the contract; `none` otherwise, and when the step faults. -/
def act (fuel : Nat) (cfg : Config) : Action → Option Config
  | .make t c =>
    if cfg.pcs t = .returned ∧ contract_ok cfg.s c = true then
      some { cfg with pcs := fun u => if u = t then .entry c else cfg.pcs u }
    else none
  | .step t =>
    match step fuel cfg.s (cfg.pcs t) with
    | .error _ => none
    | .ok (s1, pc1) => some { s := s1, pcs := fun u => if u = t then pc1 else cfg.pcs u }

/-- A run of actions. -/
def run_actions (fuel : Nat) : List Action → Config → Option Config
  | [], cfg => some cfg
  | a :: rest, cfg =>
    match act fuel cfg a with
    | none => none
    | some cfg1 => run_actions fuel rest cfg1

/-- The call `c` made on a thread and run to its return with no other thread
in between. -/
def whole (thread : Nat) (c : Call) : List Action :=
  .make thread c :: List.replicate 6 (.step thread)

/-- The start of a Round-Robin run with quantum 2: empty queue, empty run
table, every process WAITING with a `NULL` link, no thread inside a call. -/
def rr_start : Config :=
  { s := init_sched .RR 2 (fresh_mem .PROCESS_WAITING (fun _ => 0)),
    pcs := fun _ => .returned }

/-- Calls that do not overlap: processes 1 and 2 are woken (thread 2) and
dispatched on CPU 0 and CPU 1, then process 7 is woken.  Then CPU 0 and
CPU 1 both call `terminate`.  Thread 0 runs up to the reads of `dequeue`
(`removed` is process 7, `head == tail` holds); thread 1 runs its whole call
and dispatches process 7 on CPU 1; thread 0 runs on to its return. -/
def race_actions : List Action :=
  whole 2 (.wake_up 1) ++ whole 0 (.idle 0) ++ whole 2 (.wake_up 2) ++ whole 1 (.idle 1) ++
    whole 2 (.wake_up 7) ++
    [.make 0 (.terminate 0), .make 1 (.terminate 1),
     .step 0, .step 0, .step 0,
     .step 1, .step 1, .step 1, .step 1, .step 1, .step 1,
     .step 0, .step 0, .step 0]

/-- The configuration after `race_actions`. -/
def race_reached : Config :=
  (run_actions 0 race_actions rr_start).getD rr_start

/-- After `race_actions`, CPU 0 calls `terminate` and CPU 1 calls `preempt`;
thread 0 takes its first step. -/
def race_then_terminate : List Action :=
  race_actions ++ [.make 0 (.terminate 0), .make 1 (.preempt 1), .step 0]

/-- The configuration after `race_then_terminate`. -/
def race_terminated : Config :=
  (run_actions 0 race_then_terminate rr_start).getD rr_start

/-- Two idle CPUs and one process: process 7 is woken, CPU 0 and CPU 1 both
call `idle` and both leave the loop with the queue not empty.  Then CPU 0
runs `schedule` to its return and takes process 7. -/
def idle_actions : List Action :=
  whole 2 (.wake_up 7) ++
    [.make 0 (.idle 0), .make 1 (.idle 1), .step 0, .step 1,
     .step 0, .step 0, .step 0, .step 0, .step 0]

/-- As `idle_actions`, but thread 1 has also made the test `is_empty(rq)` of
`schedule` before CPU 0 takes process 7. -/
def idle_actions_late : List Action :=
  whole 2 (.wake_up 7) ++
    [.make 0 (.idle 0), .make 1 (.idle 1), .step 0, .step 1, .step 1,
     .step 0, .step 0, .step 0, .step 0, .step 0]

/-! ## Concrete states used below -/

/-- A Round-Robin state with quantum 2: ready queue 4, 5, and process 9
RUNNING on CPU 0, its `next` link still pointing at 4. -/
def running_example : Sched :=
  { mem := fun a =>
      { state := if a = 9 then .PROCESS_RUNNING else .PROCESS_READY,
        priority := 0,
        next := if a = 4 then some 5 else if a = 9 then some 4 else none },
    rq := { head := some 4, tail := some 5 },
    current := fun c => if c = 0 then some 9 else none,
    scheduler_algorithm := .RR, ts := 2, trace := [] }

/-- A Priority state: the ready queue holds process 1 (priority 1) alone, and
process 2 (priority 2) is WAITING; all `next` links are `NULL`. -/
def wake_up_example : Sched :=
  { mem := fun a =>
      { state := if a = 1 then .PROCESS_READY else .PROCESS_WAITING,
        priority := a, next := none },
    rq := { head := some 1, tail := some 1 },
    current := fun _ => none,
    scheduler_algorithm := .PR, ts := 0, trace := [] }

/-! ## Basic facts on the memory updates -/

@[simp] theorem set_next_state (mem : Nat → pcb_t) (p q : Nat) (v : Option Nat) :
    (set_next mem p v q).state = (mem q).state := by
  unfold set_next; split <;> rfl

@[simp] theorem set_next_priority (mem : Nat → pcb_t) (p q : Nat) (v : Option Nat) :
    (set_next mem p v q).priority = (mem q).priority := by
  unfold set_next; split <;> rfl

@[simp] theorem set_next_next_self (mem : Nat → pcb_t) (p : Nat) (v : Option Nat) :
    (set_next mem p v p).next = v := by
  simp [set_next]

theorem set_next_next_of_ne (mem : Nat → pcb_t) {p q : Nat} (v : Option Nat) (h : q ≠ p) :
    (set_next mem p v q).next = (mem q).next := by
  simp [set_next, h]

@[simp] theorem set_state_next (mem : Nat → pcb_t) (p q : Nat) (v : process_state_t) :
    (set_state mem p v q).next = (mem q).next := by
  unfold set_state; split <;> rfl

@[simp] theorem set_state_priority (mem : Nat → pcb_t) (p q : Nat) (v : process_state_t) :
    (set_state mem p v q).priority = (mem q).priority := by
  unfold set_state; split <;> rfl

@[simp] theorem set_state_state_self (mem : Nat → pcb_t) (p : Nat) (v : process_state_t) :
    (set_state mem p v p).state = v := by
  simp [set_state]

theorem set_state_state_of_ne (mem : Nat → pcb_t) {p q : Nat} (v : process_state_t)
    (h : q ≠ p) : (set_state mem p v q).state = (mem q).state := by
  simp [set_state, h]

@[simp] theorem set_slot_self (current : Nat → Option Nat) (c : Nat) (v : Option Nat) :
    set_slot current c v c = v := by
  simp [set_slot]

theorem set_slot_of_ne (current : Nat → Option Nat) {c d : Nat} (v : Option Nat)
    (h : d ≠ c) : set_slot current c v d = current d := by
  simp [set_slot, h]

/-! ## The queue representation -/

theorem is_empty_iff (q : queue_t) : is_empty q = true ↔ q.head = none ∧ q.tail = none := by
  unfold is_empty; split <;> simp_all

theorem isQueue_nil (mem : Nat → pcb_t) (rq : queue_t) :
    IsQueue mem rq [] ↔ is_empty rq = true := by
  simp [IsQueue, links, is_empty_iff]

theorem is_empty_of_isQueue_cons {mem : Nat → pcb_t} {rq : queue_t} {a : Nat} {l : List Nat}
    (h : IsQueue mem rq (a :: l)) : is_empty rq = false := by
  have h1 : rq.head = some a := by simpa using h.1
  cases hq : is_empty rq with
  | false => rfl
  | true => rw [is_empty_iff] at hq; rw [hq.1] at h1; cases h1

/-- Links only depend on the `next` fields of the listed records. -/
theorem links_congr {mem mem2 : Nat → pcb_t} :
    ∀ (l : List Nat), (∀ a ∈ l, (mem2 a).next = (mem a).next) → links mem l → links mem2 l
  | [], _, _ => trivial
  | [_], _, _ => trivial
  | a :: b :: rest, hmem, h => by
    refine ⟨?_, links_congr (b :: rest) (fun x hx => hmem x (List.mem_cons_of_mem _ hx)) h.2⟩
    rw [hmem a (List.mem_cons_self _ _)]; exact h.1

/-- Writing the `next` link of the last element appends to the chain. -/
theorem links_snoc (mem : Nat → pcb_t) (p t : Nat) :
    ∀ (l : List Nat), l.getLast? = some t → l.Nodup → links mem l →
      links (set_next mem t (some p)) (l ++ [p])
  | [], h, _, _ => by simp at h
  | [a], h, _, _ => by
    have : a = t := by simpa using h
    subst this
    simp [links]
  | a :: b :: rest, h, hn, hl => by
    have hlast : (b :: rest).getLast? = some t := by
      simpa [List.getLast?_cons_cons] using h
    have hn2 : (b :: rest).Nodup := (List.nodup_cons.mp hn).2
    have hat : a ≠ t := by
      intro e
      have : t ∈ b :: rest := List.mem_of_getLast?_eq_some hlast
      exact (List.nodup_cons.mp hn).1 (e ▸ this)
    have ih := links_snoc mem p t (b :: rest) hlast hn2 hl.2
    refine ⟨?_, ih⟩
    rw [set_next_next_of_ne mem _ hat]; exact hl.1

/-! ## Queue operations on a represented queue -/

/-- Under FCFS and Round-Robin, `enqueue` appends at the tail. -/
theorem enqueue_tail (fuel p : Nat) (s : Sched) (l : List Nat)
    (halg : s.scheduler_algorithm ≠ .PR) (hq : IsQueue s.mem s.rq l) (hp : p ∉ l) :
    ∃ s2, enqueue fuel p s = .ok s2 ∧ IsQueue s2.mem s2.rq (l ++ [p]) ∧
      s2.current = s.current ∧ s2.scheduler_algorithm = s.scheduler_algorithm ∧
      s2.ts = s.ts ∧ (∀ q, (s2.mem q).state = (s.mem q).state) ∧
      (∀ q, (s2.mem q).priority = (s.mem q).priority) ∧
      s2.trace = s.trace ++ (if l = [] then [Event.cond_signal] else []) := by
  cases l with
  | nil =>
    have he : is_empty s.rq = true := (isQueue_nil _ _).mp hq
    refine ⟨_, by simp [enqueue, halg, he]; rfl, ?_⟩
    simp [IsQueue, links]
  | cons a rest =>
    have he : is_empty s.rq = false := is_empty_of_isQueue_cons hq
    obtain ⟨hh, ht, hl, hn⟩ := hq
    obtain ⟨t, hlast⟩ : ∃ t, (a :: rest).getLast? = some t :=
      ⟨(a :: rest).getLast (by simp), List.getLast?_eq_getLast _ _⟩
    rw [hlast] at ht
    refine ⟨{ s with mem := set_next s.mem t (some p),
                     rq := { s.rq with tail := some p } }, ?_, ?_⟩
    · simp [enqueue, halg, he, ht]
    · refine ⟨⟨?_, ?_, ?_, ?_⟩, rfl, rfl, rfl, ?_, ?_, ?_⟩
      · simpa using hh
      · show some p = ((a :: rest) ++ [p]).getLast?
        rw [List.getLast?_append]; rfl
      · exact links_snoc s.mem p t (a :: rest) hlast hn hl
      · rw [List.nodup_append]
        refine ⟨hn, List.nodup_singleton p, ?_⟩
        intro x hx hx2
        rw [List.mem_singleton] at hx2
        exact hp (hx2 ▸ hx)
      · intro q; simp
      · intro q; simp
      · simp

/-- On a represented non-empty queue `dequeue` returns the head and leaves the
rest, under every discipline; memory, run table and trace are untouched. -/
theorem dequeue_cons (s : Sched) (h : Nat) (rest : List Nat)
    (hq : IsQueue s.mem s.rq (h :: rest)) :
    dequeue s = .ok (some h, { s with rq := rq_without_head s.mem s.rq h }) ∧
      IsQueue s.mem (rq_without_head s.mem s.rq h) rest := by
  obtain ⟨hh, ht, hl, hn⟩ := hq
  have hh2 : s.rq.head = some h := by simpa using hh
  cases rest with
  | nil =>
    have ht2 : s.rq.tail = some h := by simpa using ht
    constructor
    · simp [dequeue, rq_without_head, hh2, ht2]
    · simp [IsQueue, links, rq_without_head, hh2, ht2]
  | cons b rest2 =>
    obtain ⟨t, hlast⟩ : ∃ t, (b :: rest2).getLast? = some t :=
      ⟨(b :: rest2).getLast (by simp), List.getLast?_eq_getLast _ _⟩
    have ht2 : s.rq.tail = some t := by
      rw [ht, List.getLast?_cons_cons, hlast]
    have hne : h ≠ t := by
      intro e
      have : t ∈ b :: rest2 := List.mem_of_getLast?_eq_some hlast
      exact (List.nodup_cons.mp hn).1 (e ▸ this)
    constructor
    · simp [dequeue, rq_without_head, hh2, ht2, hne]
    · refine ⟨?_, ?_, hl.2, (List.nodup_cons.mp hn).2⟩
      · simpa [rq_without_head, hh2, ht2, hne] using hl.1
      · simp [rq_without_head, hh2, ht2, hne, hlast]

/-- Under FCFS and Round-Robin a run of enqueues of fresh, pairwise distinct
processes appends them in order. -/
theorem enqueue_all_tail (fuel : Nat) :
    ∀ (ps : List Nat) (s : Sched) (l : List Nat), s.scheduler_algorithm ≠ .PR →
      IsQueue s.mem s.rq l → ps.Nodup → (∀ p ∈ ps, p ∉ l) →
      ∃ s1, enqueue_all fuel ps s = .ok s1 ∧ IsQueue s1.mem s1.rq (l ++ ps)
  | [], s, l, _, hq, _, _ => ⟨s, rfl, by simpa using hq⟩
  | p :: ps, s, l, halg, hq, hn, hnew => by
    obtain ⟨s2, he, hq2, _, ha2, _⟩ :=
      enqueue_tail fuel p s l halg hq (hnew p (List.mem_cons_self _ _))
    have hnew2 : ∀ x ∈ ps, x ∉ l ++ [p] := by
      intro x hx hx2
      rw [List.mem_append, List.mem_singleton] at hx2
      rcases hx2 with h1 | h1
      · exact hnew x (List.mem_cons_of_mem _ hx) h1
      · exact (List.nodup_cons.mp hn).1 (h1 ▸ hx)
    obtain ⟨s1, he1, hq1⟩ :=
      enqueue_all_tail fuel ps s2 (l ++ [p]) (ha2 ▸ halg) hq2 (List.nodup_cons.mp hn).2 hnew2
    refine ⟨s1, ?_, by simpa using hq1⟩
    simp [enqueue_all, he, he1]

/-- Dequeuing as many times as the queue is long returns its elements in
order and leaves it empty. -/
theorem dequeue_n_all :
    ∀ (l : List Nat) (s : Sched), IsQueue s.mem s.rq l →
      ∃ s2, dequeue_n l.length s = .ok (l.map some, s2) ∧ is_empty s2.rq = true
  | [], s, hq => ⟨s, rfl, (isQueue_nil _ _).mp hq⟩
  | h :: rest, s, hq => by
    obtain ⟨hd, hq2⟩ := dequeue_cons s h rest hq
    obtain ⟨s2, hd2, he2⟩ := dequeue_n_all rest { s with rq := rq_without_head s.mem s.rq h } hq2
    refine ⟨s2, ?_, he2⟩
    simp [dequeue_n, hd, hd2]

/-- On a represented non-empty queue `schedule` dispatches the head: the
state it returns, in full. -/
theorem schedule_cons (cpu_id : Nat) (s : Sched) (h : Nat) (rest : List Nat)
    (hq : IsQueue s.mem s.rq (h :: rest)) :
    schedule cpu_id s = .ok
      { s with rq := rq_without_head s.mem s.rq h,
               current := set_slot s.current cpu_id (some h),
               mem := set_state s.mem h .PROCESS_RUNNING,
               trace := s.trace ++ [.context_switch cpu_id (some h)
                 (if s.scheduler_algorithm = .RR then s.ts else -1)] } := by
  obtain ⟨hd, _⟩ := dequeue_cons s h rest hq
  have he : is_empty s.rq = false := is_empty_of_isQueue_cons hq
  cases ha : s.scheduler_algorithm <;> simp [schedule, he, ha, dispatch, hd]

/-- On an empty queue `schedule` idles the CPU: the state it returns, in full. -/
theorem schedule_nil (cpu_id : Nat) (s : Sched) (he : is_empty s.rq = true) :
    schedule cpu_id s = .ok
      { s with current := set_slot s.current cpu_id none,
               trace := s.trace ++ [.context_switch cpu_id none (-1)] } := by
  simp [schedule, he]

/-- Writing a `state` field does not change what the queue record represents. -/
theorem isQueue_set_state {mem : Nat → pcb_t} {rq : queue_t} {l : List Nat} (p : Nat)
    (v : process_state_t) (h : IsQueue mem rq l) : IsQueue (set_state mem p v) rq l :=
  ⟨h.1, h.2.1, links_congr l (fun a _ => set_state_next mem p a v) h.2.2.1, h.2.2.2⟩

@[simp] theorem rq_without_head_set_state (mem : Nat → pcb_t) (rq : queue_t) (h p : Nat)
    (v : process_state_t) :
    rq_without_head (set_state mem p v) rq h = rq_without_head mem rq h := by
  simp [rq_without_head]

/-- A queue record whose `head` and `tail` both point at `a` represents the
one-element queue only. -/
theorem isQueue_head_eq_tail {mem : Nat → pcb_t} {rq : queue_t} {l : List Nat} {a : Nat}
    (h : IsQueue mem rq l) (hh : rq.head = some a) (ht : rq.tail = some a) : l = [a] := by
  obtain ⟨h1, h2, _, hn⟩ := h
  cases l with
  | nil => rw [hh] at h1; cases h1
  | cons b rest =>
    have hb : a = b := by rw [hh] at h1; simpa using h1
    subst hb
    cases rest with
    | nil => rfl
    | cons c rest2 =>
      exfalso
      rw [ht, List.getLast?_cons_cons] at h2
      exact (List.nodup_cons.mp hn).1 (List.mem_of_getLast?_eq_some h2.symm)

/-- Under FCFS and Round-Robin `wake_up` sets the process READY and appends
it; run table and the other states are kept. -/
theorem wake_up_tail (fuel p : Nat) (s : Sched) (l : List Nat)
    (halg : s.scheduler_algorithm ≠ .PR) (hq : IsQueue s.mem s.rq l) (hp : p ∉ l) :
    ∃ s2, wake_up fuel (some p) s = .ok s2 ∧ IsQueue s2.mem s2.rq (l ++ [p]) ∧
      (s2.mem p).state = .PROCESS_READY ∧ s2.current = s.current ∧
      (∀ q, q ≠ p → (s2.mem q).state = (s.mem q).state) := by
  obtain ⟨s2, he, hq2, hc, _, _, hst, _, _⟩ :=
    enqueue_tail fuel p { s with mem := set_state s.mem p .PROCESS_READY } l halg
      (isQueue_set_state p _ hq) hp
  refine ⟨s2, by simpa only [wake_up] using he, hq2, by simp [hst], hc, ?_⟩
  intro q hne
  simp [hst, set_state_state_of_ne _ _ hne]

/-! ## Insertion behind an element of the chain (Priority branch) -/

theorem mem_insert_after {c p x : Nat} :
    ∀ {l : List Nat}, x ∈ insert_after c p l → x = p ∨ x ∈ l
  | [], h => by simp [insert_after] at h
  | a :: rest, h => by
    simp only [insert_after, List.mem_cons] at h
    rcases h with h | h
    · exact Or.inr (h ▸ List.mem_cons_self _ _)
    · by_cases hac : a = c
      · rw [if_pos hac, List.mem_cons] at h
        rcases h with h | h
        · exact Or.inl h
        · exact Or.inr (List.mem_cons_of_mem _ h)
      · rw [if_neg hac] at h
        rcases mem_insert_after h with h2 | h2
        · exact Or.inl h2
        · exact Or.inr (List.mem_cons_of_mem _ h2)

theorem nodup_insert_after {c p : Nat} :
    ∀ {l : List Nat}, l.Nodup → p ∉ l → (insert_after c p l).Nodup
  | [], _, _ => by simp [insert_after]
  | a :: rest, hn, hp => by
    have hpa : p ≠ a := fun e => hp (e ▸ List.mem_cons_self _ _)
    have hpr : p ∉ rest := fun h => hp (List.mem_cons_of_mem _ h)
    obtain ⟨har, hnr⟩ := List.nodup_cons.mp hn
    simp only [insert_after]
    by_cases hac : a = c
    · rw [if_pos hac]
      refine List.nodup_cons.mpr ⟨?_, List.nodup_cons.mpr ⟨hpr, hnr⟩⟩
      intro h
      rcases List.mem_cons.mp h with h | h
      · exact hpa h.symm
      · exact har h
    · rw [if_neg hac]
      refine List.nodup_cons.mpr ⟨?_, nodup_insert_after hnr hpr⟩
      intro h
      rcases mem_insert_after h with h | h
      · exact hpa h.symm
      · exact har h

theorem getLast_insert_after {c p : Nat} :
    ∀ {l : List Nat}, c ∈ l.dropLast → (insert_after c p l).getLast? = l.getLast?
  | [], h => by simp at h
  | [a], h => by simp at h
  | a :: b :: rest, h => by
    simp only [insert_after]
    by_cases hac : a = c
    · rw [if_pos hac]
      simp [List.getLast?_cons_cons]
    · rw [if_neg hac]
      have hc : c ∈ (b :: rest).dropLast := by
        rw [List.dropLast_cons₂, List.mem_cons] at h
        rcases h with h | h
        · exact absurd h.symm hac
        · exact h
      have ih := getLast_insert_after (p := p) hc
      simp only [insert_after] at ih
      rw [List.getLast?_cons_cons, ih, List.getLast?_cons_cons]

/-- Links only depend on the `next` fields of the records before the last. -/
theorem links_congr_dropLast {mem mem2 : Nat → pcb_t} :
    ∀ (l : List Nat), (∀ a ∈ l.dropLast, (mem2 a).next = (mem a).next) →
      links mem l → links mem2 l
  | [], _, _ => trivial
  | [_], _, _ => trivial
  | a :: b :: rest, hmem, h => by
    have h1 : a ∈ (a :: b :: rest).dropLast := by simp [List.dropLast_cons₂]
    refine ⟨by rw [hmem a h1]; exact h.1, links_congr_dropLast (b :: rest) ?_ h.2⟩
    intro x hx
    exact hmem x (by rw [List.dropLast_cons₂]; exact List.mem_cons_of_mem _ hx)

/-- The two writes `process->next = curr->next; curr->next = process` put
`p` behind `c` when `c` is an element of the chain other than the last. -/
theorem links_insert_after (mem : Nat → pcb_t) (c p : Nat) :
    ∀ (l : List Nat), links mem l → l.Nodup → p ∉ l → c ∈ l.dropLast →
      links (set_next (set_next mem p (mem c).next) c (some p)) (insert_after c p l)
  | [], _, _, _, h => by simp at h
  | [a], _, _, _, h => by simp at h
  | a :: b :: rest, hl, hn, hp, hc => by
    have hpa : p ≠ a := fun e => hp (e ▸ List.mem_cons_self _ _)
    have hpr : p ∉ b :: rest := fun h => hp (List.mem_cons_of_mem _ h)
    obtain ⟨har, hnr⟩ := List.nodup_cons.mp hn
    simp only [insert_after]
    by_cases hac : a = c
    · subst hac
      rw [if_pos rfl]
      refine ⟨by simp, ?_⟩
      have hrest : links (set_next (set_next mem p (mem a).next) a (some p)) (b :: rest) := by
        refine links_congr (b :: rest) ?_ hl.2
        intro x hx
        have hxa : x ≠ a := fun e => har (e ▸ hx)
        have hxp : x ≠ p := fun e => hpr (e ▸ hx)
        rw [set_next_next_of_ne _ _ hxa, set_next_next_of_ne _ _ hxp]
      refine ⟨?_, hrest⟩
      rw [set_next_next_of_ne _ _ hpa, set_next_next_self]
      exact hl.1
    · rw [if_neg hac]
      have hc2 : c ∈ (b :: rest).dropLast := by
        rw [List.dropLast_cons₂, List.mem_cons] at hc
        rcases hc with h | h
        · exact absurd h.symm hac
        · exact h
      have ih := links_insert_after mem c p (b :: rest) hl.2 hnr hpr hc2
      simp only [insert_after] at ih
      refine ⟨?_, ih⟩
      rw [set_next_next_of_ne _ _ hac, set_next_next_of_ne _ _ (Ne.symm hpa)]
      exact hl.1

/-- Whatever element `curr` the walk stops at, the two writes of the Priority
branch leave a represented queue: the old one with `p` behind `curr` when
`curr` is in the queue and not its last element, the old one otherwise. -/
theorem isQueue_insert {mem : Nat → pcb_t} {rq : queue_t} {l : List Nat} (p curr : Nat)
    (hq : IsQueue mem rq l) (hp : p ∉ l) :
    ∃ l2, IsQueue (set_next (set_next mem p (mem curr).next) curr (some p)) rq l2 ∧
      (∀ x ∈ l2, x = p ∨ x ∈ l) ∧
      l2 = if curr ∈ l.dropLast then insert_after curr p l else l := by
  obtain ⟨hh, ht, hl, hn⟩ := hq
  by_cases hc : curr ∈ l.dropLast
  · refine ⟨insert_after curr p l, ⟨?_, ?_, links_insert_after mem curr p l hl hn hp hc,
      nodup_insert_after hn hp⟩, fun x hx => mem_insert_after hx, by rw [if_pos hc]⟩
    · cases l with
      | nil => simp at hc
      | cons a rest => simpa [insert_after] using hh
    · rw [getLast_insert_after hc]; exact ht
  · refine ⟨l, ⟨hh, ht, ?_, hn⟩, fun x hx => Or.inr hx, by rw [if_neg hc]⟩
    refine links_congr_dropLast l ?_ hl
    intro a ha
    have hac : a ≠ curr := fun e => hc (e ▸ ha)
    have hap : a ≠ p := fun e => hp (e ▸ List.mem_of_mem_dropLast ha)
    rw [set_next_next_of_ne _ _ hac, set_next_next_of_ne _ _ hap]

/-! ## The invariant along handler calls -/

/-- Under every discipline, when `enqueue` returns it leaves a represented
queue made of old elements and the new process, and changes neither a state
nor the run table. -/
theorem enqueue_inv (fuel p : Nat) (s s2 : Sched) (l : List Nat)
    (hq : IsQueue s.mem s.rq l) (hp : p ∉ l) (he : enqueue fuel p s = .ok s2) :
    ∃ l2, IsQueue s2.mem s2.rq l2 ∧ (∀ x ∈ l2, x = p ∨ x ∈ l) ∧
      s2.current = s.current ∧ (∀ q, (s2.mem q).state = (s.mem q).state) ∧
      s2.scheduler_algorithm = s.scheduler_algorithm ∧ s2.ts = s.ts := by
  by_cases halg : s.scheduler_algorithm = .PR
  · cases l with
    | nil =>
      have hem : is_empty s.rq = true := (isQueue_nil _ _).mp hq
      simp only [enqueue, halg, hem, if_true] at he
      have e := Except.ok.inj he
      subst e
      exact ⟨[p], by simp [IsQueue, links], by simp, rfl, fun _ => rfl, halg.symm, rfl⟩
    | cons a rest =>
      have hem : is_empty s.rq = false := is_empty_of_isQueue_cons hq
      have hh : s.rq.head = some a := by simpa using hq.1
      simp only [enqueue, halg, hem, if_true, hh] at he
      by_cases hpr : (s.mem a).priority > (s.mem p).priority
      · simp only [hpr, if_true] at he
        have e := Except.ok.inj he
        subst e
        refine ⟨p :: a :: rest, ⟨rfl, ?_, ⟨by simp, ?_⟩, ?_⟩, ?_, rfl, ?_, halg.symm, rfl⟩
        · simpa [List.getLast?_cons_cons] using hq.2.1
        · refine links_congr (a :: rest) ?_ hq.2.2.1
          intro x hx
          exact set_next_next_of_ne _ _ (fun e => hp (e ▸ hx))
        · exact List.nodup_cons.mpr ⟨hp, hq.2.2.2⟩
        · intro x hx
          rcases List.mem_cons.mp hx with h | h
          · exact Or.inl h
          · exact Or.inr h
        · intro q; simp
      · simp only [hpr, if_false] at he
        cases hw : walk s.mem (s.mem p).priority fuel a with
        | error e => rw [hw] at he; cases he
        | ok curr =>
          rw [hw] at he
          have e := Except.ok.inj he
          subst e
          obtain ⟨l2, hq2, hsub, _⟩ := isQueue_insert p curr hq hp
          exact ⟨l2, hq2, hsub, rfl, fun q => by simp, halg.symm, rfl⟩
  · obtain ⟨s3, he3, hq3, hc3, ha3, hts3, hst3, _, _⟩ := enqueue_tail fuel p s l halg hq hp
    rw [he3] at he
    have e := Except.ok.inj he
    subst e
    refine ⟨l ++ [p], hq3, ?_, hc3, hst3, ha3, hts3⟩
    intro x hx
    rcases List.mem_append.mp hx with h | h
    · exact Or.inr h
    · exact Or.inl (List.mem_singleton.mp h)

/-- The dispatcher restores the invariant for the slot it fills, and changes
no state but that of the process it dispatches, from READY to RUNNING. -/
theorem schedule_inv (cpu_id : Nat) (s s2 : Sched) (hi : InvExcept (some cpu_id) s)
    (hs : schedule cpu_id s = .ok s2) :
    Inv s2 ∧ ∀ q, (s2.mem q).state = (s.mem q).state ∨
      ((s.mem q).state = .PROCESS_READY ∧ (s2.mem q).state = .PROCESS_RUNNING) := by
  obtain ⟨l, hq, hready, hrun, hinj⟩ := hi
  cases l with
  | nil =>
    have hem : is_empty s.rq = true := (isQueue_nil _ _).mp hq
    rw [schedule_nil cpu_id s hem] at hs
    have e := Except.ok.inj hs
    subst e
    refine ⟨⟨[], hq, hready, ?_, ?_⟩, fun q => Or.inl rfl⟩
    · intro c p _ hc
      simp only [set_slot] at hc
      by_cases hcc : c = cpu_id
      · rw [if_pos hcc] at hc; cases hc
      · rw [if_neg hcc] at hc
        exact hrun c p (by simpa using hcc) hc
    · intro c d p _ _ hc hd
      simp only [set_slot] at hc hd
      by_cases hcc : c = cpu_id
      · rw [if_pos hcc] at hc; cases hc
      · by_cases hdc : d = cpu_id
        · rw [if_pos hdc] at hd; cases hd
        · rw [if_neg hcc] at hc
          rw [if_neg hdc] at hd
          exact hinj c d p (by simpa using hcc) (by simpa using hdc) hc hd
  | cons h rest =>
    rw [schedule_cons cpu_id s h rest hq] at hs
    have e := Except.ok.inj hs
    subst e
    have hq2 := isQueue_set_state h .PROCESS_RUNNING (dequeue_cons s h rest hq).2
    have hhr : h ∉ rest := (List.nodup_cons.mp hq.2.2.2).1
    have hnot : ∀ c, c ≠ cpu_id → s.current c ≠ some h := by
      intro c hc hcur
      have h1 := hrun c h (by simpa using hc) hcur
      rw [hready h (List.mem_cons_self _ _)] at h1
      cases h1
    refine ⟨⟨rest, hq2, ?_, ?_, ?_⟩, ?_⟩
    · intro x hx
      have hxh : x ≠ h := fun e => hhr (e ▸ hx)
      show (set_state s.mem h .PROCESS_RUNNING x).state = _
      rw [set_state_state_of_ne _ _ hxh]
      exact hready x (List.mem_cons_of_mem _ hx)
    · intro c p _ hc
      show (set_state s.mem h .PROCESS_RUNNING p).state = _
      by_cases hph : p = h
      · subst hph; simp
      · rw [set_state_state_of_ne _ _ hph]
        by_cases hcc : c = cpu_id
        · subst hcc
          have : some h = some p := by simpa using hc
          exact absurd (Option.some.inj this).symm hph
        · have hc2 : s.current c = some p := by
            have := hc
            simp only [set_slot, if_neg hcc] at this
            exact this
          exact hrun c p (by simpa using hcc) hc2
    · intro c d p _ _ hc hd
      simp only [set_slot] at hc hd
      by_cases hcc : c = cpu_id
      · by_cases hdc : d = cpu_id
        · rw [hcc, hdc]
        · rw [if_pos hcc] at hc
          rw [if_neg hdc] at hd
          have hph : h = p := Option.some.inj hc
          exact absurd (hph ▸ hd) (hnot d hdc)
      · by_cases hdc : d = cpu_id
        · rw [if_pos hdc] at hd
          rw [if_neg hcc] at hc
          have hph : h = p := Option.some.inj hd
          exact absurd (hph ▸ hc) (hnot c hcc)
        · rw [if_neg hcc] at hc
          rw [if_neg hdc] at hd
          exact hinj c d p (by simpa using hcc) (by simpa using hdc) hc hd
    · intro q
      show (set_state s.mem h .PROCESS_RUNNING q).state = _ ∨ _ ∧
        (set_state s.mem h .PROCESS_RUNNING q).state = _
      by_cases hqh : q = h
      · subst hqh
        exact Or.inr ⟨hready q (List.mem_cons_self _ _), by simp⟩
      · exact Or.inl (set_state_state_of_ne _ _ hqh)

/-- Writing the state of the process in the slot of `cpu_id` keeps the
invariant for the queue and the other slots. -/
theorem invExcept_set_state (cpu_id P : Nat) (v : process_state_t) (s : Sched) (hi : Inv s)
    (hslot : s.current cpu_id = some P) (hrunning : (s.mem P).state = .PROCESS_RUNNING) :
    ∃ l, IsQueue (set_state s.mem P v) s.rq l ∧ P ∉ l ∧
      (∀ x ∈ l, (set_state s.mem P v x).state = .PROCESS_READY) ∧
      (∀ c p, some c ≠ some cpu_id → s.current c = some p →
        (set_state s.mem P v p).state = .PROCESS_RUNNING) ∧
      (∀ c d p, some c ≠ some cpu_id → some d ≠ some cpu_id →
        s.current c = some p → s.current d = some p → c = d) := by
  obtain ⟨l, hq, hready, hrun, hinj⟩ := hi
  have hPl : P ∉ l := by
    intro h
    rw [hready P h] at hrunning
    cases hrunning
  refine ⟨l, isQueue_set_state P v hq, hPl, ?_, ?_, ?_⟩
  · intro x hx
    have hxP : x ≠ P := fun e => hPl (e ▸ hx)
    rw [set_state_state_of_ne _ _ hxP]
    exact hready x hx
  · intro c p hc hcur
    have hpP : p ≠ P := by
      intro e
      subst e
      exact hc (congrArg some (hinj c cpu_id p (by simp) (by simp) hcur hslot))
    rw [set_state_state_of_ne _ _ hpP]
    exact hrun c p (by simp) hcur
  · intro c d p _ _ hc hd
    exact hinj c d p (by simp) (by simp) hc hd

/-- A handler call that respects the contract, runs alone and returns keeps
the invariant, and the state of a process at its return is the state at entry
or one edge of the state machine away. -/
theorem call_inv (fuel : Nat) (c : Call) (s s2 : Sched) (hi : Inv s)
    (hc : contract s c) (hr : call fuel s c = .ok s2) :
    Inv s2 ∧ ∀ q, (s2.mem q).state = (s.mem q).state ∨
      edge (s.mem q).state (s2.mem q).state = true := by
  cases c with
  | idle cpu =>
    simp only [call, idle] at hr
    by_cases hem : is_empty s.rq = true
    · simp only [hem, if_true] at hr
      have e := Except.ok.inj hr
      subst e
      exact ⟨hi, fun q => Or.inl rfl⟩
    · simp only [hem] at hr
      cases hs : schedule cpu s with
      | error e => rw [hs] at hr; cases hr
      | ok s3 =>
        rw [hs] at hr
        have e := Except.ok.inj hr
        subst e
        have hex : InvExcept (some cpu) s := by
          obtain ⟨l, hq, hready, hrun, hinj⟩ := hi
          exact ⟨l, hq, hready, fun c p _ h => hrun c p (by simp) h,
            fun c d p _ _ h1 h2 => hinj c d p (by simp) (by simp) h1 h2⟩
        obtain ⟨hi2, hst⟩ := schedule_inv cpu s s3 hex hs
        refine ⟨hi2, fun q => ?_⟩
        rcases hst q with h | ⟨h1, h2⟩
        · exact Or.inl h
        · right; rw [h1, h2]; rfl
  | preempt cpu =>
    obtain ⟨P, hslot, hrunning⟩ := hc
    simp only [call, preempt, hslot] at hr
    cases he : enqueue fuel P { s with mem := set_state s.mem P .PROCESS_READY } with
    | error e => rw [he] at hr; cases hr
    | ok s1 =>
      rw [he] at hr
      obtain ⟨l, hq, hPl, hready, hrun, hinj⟩ :=
        invExcept_set_state cpu P .PROCESS_READY s hi hslot hrunning
      obtain ⟨l2, hq2, hsub, hcur, hst, _, _⟩ :=
        enqueue_inv fuel P { s with mem := set_state s.mem P .PROCESS_READY } s1 l hq hPl he
      have hex : InvExcept (some cpu) s1 := by
        refine ⟨l2, hq2, ?_, ?_, ?_⟩
        · intro x hx
          rw [hst x]
          rcases hsub x hx with h | h
          · subst h; simp
          · exact hready x h
        · intro c p hcne hcp
          rw [hst p]
          rw [hcur] at hcp
          exact hrun c p hcne hcp
        · intro c d p h1 h2 hcp hdp
          rw [hcur] at hcp hdp
          exact hinj c d p h1 h2 hcp hdp
      obtain ⟨hi2, hst2⟩ := schedule_inv cpu s1 s2 hex hr
      refine ⟨hi2, fun q => ?_⟩
      have h1 : (s1.mem q).state = (set_state s.mem P .PROCESS_READY q).state := hst q
      by_cases hqP : q = P
      · subst hqP
        rw [set_state_state_self] at h1
        rcases hst2 q with h | ⟨_, h⟩
        · right; rw [h, h1, hrunning]; rfl
        · left; rw [h, hrunning]
      · rw [set_state_state_of_ne _ _ hqP] at h1
        rcases hst2 q with h | ⟨h2, h3⟩
        · left; rw [h, h1]
        · right; rw [← h1, h2, h3]; rfl
  | yield cpu =>
    obtain ⟨P, hslot, hrunning⟩ := hc
    simp only [call, yield, hslot] at hr
    obtain ⟨l, hq, hPl, hready, hrun, hinj⟩ :=
      invExcept_set_state cpu P .PROCESS_WAITING s hi hslot hrunning
    obtain ⟨hi2, hst2⟩ := schedule_inv cpu
      { s with mem := set_state s.mem P .PROCESS_WAITING } s2 ⟨l, hq, hready, hrun, hinj⟩ hr
    refine ⟨hi2, fun q => ?_⟩
    by_cases hqP : q = P
    · subst hqP
      rcases hst2 q with h | ⟨h, _⟩
      · right
        rw [h, hrunning]
        show edge _ (set_state s.mem q .PROCESS_WAITING q).state = true
        rw [set_state_state_self]; rfl
      · have h2 : (set_state s.mem q .PROCESS_WAITING q).state = .PROCESS_READY := h
        rw [set_state_state_self] at h2
        cases h2
    · rcases hst2 q with h | ⟨h2, h3⟩
      · left; rw [h]; exact set_state_state_of_ne _ _ hqP
      · have h4 : (set_state s.mem P .PROCESS_WAITING q).state = .PROCESS_READY := h2
        rw [set_state_state_of_ne _ _ hqP] at h4
        right; rw [h4, h3]; rfl
  | terminate cpu =>
    obtain ⟨P, hslot, hrunning⟩ := hc
    simp only [call, terminate, hslot] at hr
    obtain ⟨l, hq, hPl, hready, hrun, hinj⟩ :=
      invExcept_set_state cpu P .PROCESS_TERMINATED s hi hslot hrunning
    obtain ⟨hi2, hst2⟩ := schedule_inv cpu
      { s with mem := set_state s.mem P .PROCESS_TERMINATED } s2 ⟨l, hq, hready, hrun, hinj⟩ hr
    refine ⟨hi2, fun q => ?_⟩
    by_cases hqP : q = P
    · subst hqP
      rcases hst2 q with h | ⟨h, _⟩
      · right
        rw [h, hrunning]
        show edge _ (set_state s.mem q .PROCESS_TERMINATED q).state = true
        rw [set_state_state_self]; rfl
      · have h2 : (set_state s.mem q .PROCESS_TERMINATED q).state = .PROCESS_READY := h
        rw [set_state_state_self] at h2
        cases h2
    · rcases hst2 q with h | ⟨h2, h3⟩
      · left; rw [h]; exact set_state_state_of_ne _ _ hqP
      · have h4 : (set_state s.mem P .PROCESS_TERMINATED q).state = .PROCESS_READY := h2
        rw [set_state_state_of_ne _ _ hqP] at h4
        right; rw [h4, h3]; rfl
  | wake_up p =>
    have hwait : (s.mem p).state = .PROCESS_WAITING := hc
    simp only [call, wake_up] at hr
    obtain ⟨l, hq, hready, hrun, hinj⟩ := hi
    have hpl : p ∉ l := by
      intro h
      rw [hready p h] at hwait
      cases hwait
    obtain ⟨l2, hq2, hsub, hcur, hst, _, _⟩ :=
      enqueue_inv fuel p { s with mem := set_state s.mem p .PROCESS_READY } s2 l
        (isQueue_set_state p _ hq) hpl hr
    have hstq : ∀ q, (s2.mem q).state = (set_state s.mem p .PROCESS_READY q).state := hst
    refine ⟨⟨l2, hq2, ?_, ?_, ?_⟩, fun q => ?_⟩
    · intro x hx
      rw [hstq x]
      rcases hsub x hx with h | h
      · subst h; simp
      · have hxp : x ≠ p := fun e => hpl (e ▸ h)
        rw [set_state_state_of_ne _ _ hxp]
        exact hready x h
    · intro c q hcne hcq
      rw [hcur] at hcq
      have hq1 := hrun c q hcne hcq
      have hqp : q ≠ p := by
        intro e
        rw [e, hwait] at hq1
        cases hq1
      rw [hstq q, set_state_state_of_ne _ _ hqp]
      exact hq1
    · intro c d q h1 h2 hcq hdq
      rw [hcur] at hcq hdq
      exact hinj c d q h1 h2 hcq hdq
    · by_cases hqp : q = p
      · subst hqp
        right
        rw [hstq q, set_state_state_self, hwait]; rfl
      · left
        rw [hstq q, set_state_state_of_ne _ _ hqp]

/-- The invariant holds in every state reached from an initial state by
calls that do not overlap. -/
theorem reachable_inv {s0 s : Sched} (h0 : initial s0) (hr : Reachable s0 s) : Inv s := by
  induction hr with
  | init =>
    refine ⟨[], (isQueue_nil _ _).mpr h0.1, by simp, ?_, ?_⟩
    · intro c p _ hc
      rw [h0.2 c] at hc
      cases hc
    · intro c d p _ _ hc
      rw [h0.2 c] at hc
      cases hc
  | step c fuel _ hc hcall ih => exact (call_inv fuel c _ _ ih hc hcall).1

theorem contract_of_ok {s : Sched} {c : Call} (h : contract_ok s c = true) : contract s c := by
  cases c with
  | idle cpu => simpa [contract_ok, contract] using h
  | preempt cpu =>
    simp only [contract_ok] at h
    cases hc : s.current cpu with
    | none => rw [hc] at h; cases h
    | some p => rw [hc] at h; exact ⟨p, hc, by simpa using h⟩
  | yield cpu =>
    simp only [contract_ok] at h
    cases hc : s.current cpu with
    | none => rw [hc] at h; cases h
    | some p => rw [hc] at h; exact ⟨p, hc, by simpa using h⟩
  | terminate cpu =>
    simp only [contract_ok] at h
    cases hc : s.current cpu with
    | none => rw [hc] at h; cases h
    | some p => rw [hc] at h; exact ⟨p, hc, by simpa using h⟩
  | wake_up p => simpa [contract_ok, contract] using h

/-- The states `run_calls` returns are reachable. -/
theorem reachable_run_calls (fuel : Nat) (s0 : Sched) :
    ∀ (cs : List Call) (s s2 : Sched), Reachable s0 s → run_calls fuel cs s = some s2 →
      Reachable s0 s2
  | [], s, s2, hr, h => by
    have e : s = s2 := by simpa [run_calls] using h
    exact e ▸ hr
  | c :: cs, s, s2, hr, h => by
    simp only [run_calls] at h
    cases hc : contract_ok s c with
    | false => rw [hc] at h; simp at h
    | true =>
      rw [hc] at h
      cases hcall : call fuel s c with
      | error e => rw [hcall] at h; simp at h
      | ok s1 =>
        rw [hcall] at h
        exact reachable_run_calls fuel s0 cs s1 s2
          (Reachable.step c fuel hr (contract_of_ok hc) hcall) (by simpa using h)

/-- The walk never leaves a record that links to itself and has a smaller
priority value than the new process. -/
theorem walk_self_loop (mem : Nat → pcb_t) (pr : Int) (c : Nat)
    (h1 : (mem c).next = some c) (h2 : (mem c).priority < pr) :
    ∀ fuel, walk mem pr fuel c = .error .out_of_fuel
  | 0 => rfl
  | fuel + 1 => by
    simp only [walk, h1, h2, if_true]
    exact walk_self_loop mem pr c h1 h2 fuel

/-- One turn of the loop of the walk. -/
theorem walk_step (mem : Nat → pcb_t) (pr : Int) (a b : Nat)
    (h1 : (mem a).next = some b) (h2 : (mem b).priority < pr) (fuel : Nat) :
    walk mem pr (fuel + 1) a = walk mem pr fuel b := by
  simp only [walk, h1, h2, if_true]

/-- In the Priority branch `enqueue` does not return when the walk from the
head does not. -/
theorem enqueue_walk_forever (s : Sched) (p h : Nat)
    (halg : s.scheduler_algorithm = .PR) (hem : is_empty s.rq = false)
    (hh : s.rq.head = some h) (hpr : ¬ (s.mem h).priority > (s.mem p).priority)
    (hw : ∀ fuel, walk s.mem (s.mem p).priority fuel h = .error .out_of_fuel) :
    ∀ fuel, enqueue fuel p s = .error .out_of_fuel := by
  intro fuel
  simp only [enqueue, halg, hem, hh, hpr, if_true, if_false, hw fuel]
  rfl

/-! ## The access log -/

/-- With a list represented, `is_empty` tells whether it is the empty list. -/
theorem is_empty_iff_nil {mem : Nat → pcb_t} {rq : queue_t} {l : List Nat}
    (h : IsQueue mem rq l) : is_empty rq = true ↔ l = [] := by
  cases l with
  | nil => simpa using (isQueue_nil mem rq).mp h
  | cons a rest => simp [is_empty_of_isQueue_cons h]

/-- Whenever `enqueue` returns a log, the log starts with the read of
`queue->head` made by `is_empty`, before the mutex is taken. -/
theorem enqueue_accesses_head (fuel p : Nat) (s : Sched) (log : List Access)
    (h : enqueue_accesses fuel p s = .ok log) :
    ∃ rest, log = .read_head :: rest := by
  have hem : ∃ r, is_empty_accesses s.rq = .read_head :: r := by
    unfold is_empty_accesses
    split
    · exact ⟨_, rfl⟩
    · exact ⟨_, rfl⟩
  obtain ⟨r, hr⟩ := hem
  unfold enqueue_accesses at h
  rw [hr] at h
  split at h
  · split at h
    · exact ⟨_, (Except.ok.inj h).symm⟩
    · split at h
      · cases h
      · split at h
        · exact ⟨_, (Except.ok.inj h).symm⟩
        · split at h
          · cases h
          · split at h
            · cases h
            · exact ⟨_, (Except.ok.inj h).symm⟩
  · split at h
    · exact ⟨_, (Except.ok.inj h).symm⟩
    · split at h
      · cases h
      · exact ⟨_, (Except.ok.inj h).symm⟩

/-- A log that starts with a read has a read outside the mutex. -/
theorem reads_locked_read_head (rest : List Access) :
    reads_locked false (.read_head :: rest) = false := by
  simp [reads_locked, is_read]

/-- The log of the walk exists exactly when the walk returns. -/
theorem walk_accesses_spec (mem : Nat → pcb_t) (pr : Int) :
    ∀ (fuel curr : Nat),
      (∀ e, walk mem pr fuel curr = .error e → walk_accesses mem pr fuel curr = .error e) ∧
      (∀ c, walk mem pr fuel curr = .ok c → ∃ log, walk_accesses mem pr fuel curr = .ok log)
  | 0, curr => by
    constructor
    · intro e h
      simp only [walk] at h
      have e2 := Except.error.inj h
      subst e2
      rfl
    · intro c h
      simp [walk] at h
  | fuel + 1, curr => by
    have ih := fun n => walk_accesses_spec mem pr fuel n
    cases hn : (mem curr).next with
    | none =>
      constructor
      · intro e h
        simp [walk, hn] at h
      · intro c _
        exact ⟨[.read_next curr], by simp [walk_accesses, hn]⟩
    | some n =>
      by_cases hp : (mem n).priority < pr
      · constructor
        · intro e h
          simp only [walk, hn, hp, if_true] at h
          simp only [walk_accesses, hn, hp, if_true, (ih n).1 e h]
        · intro c h
          simp only [walk, hn, hp, if_true] at h
          obtain ⟨log, hlog⟩ := (ih n).2 c h
          exact ⟨[.read_next curr, .read_next curr, .read_priority n, .read_next curr] ++ log,
            by simp only [walk_accesses, hn, hp, if_true, hlog]⟩
      · constructor
        · intro e h
          simp [walk, hn, hp] at h
        · intro c _
          exact ⟨[.read_next curr, .read_next curr, .read_priority n],
            by simp only [walk_accesses, hn, hp, if_false]⟩

/-- The log of `enqueue` exists exactly when `enqueue` returns, and the two
fail alike. -/
theorem enqueue_accesses_spec (fuel p : Nat) (s : Sched) :
    (∀ e, enqueue fuel p s = .error e → enqueue_accesses fuel p s = .error e) ∧
      (∀ s2, enqueue fuel p s = .ok s2 → ∃ log, enqueue_accesses fuel p s = .ok log) := by
  unfold enqueue enqueue_accesses
  by_cases halg : s.scheduler_algorithm = .PR
  · simp only [halg, if_true]
    cases hem : is_empty s.rq with
    | true => simp
    | false =>
      simp only [Bool.false_eq_true, if_false]
      cases hh : s.rq.head with
      | none => simp
      | some h =>
        by_cases hpr : (s.mem h).priority > (s.mem p).priority
        · simp [hpr]
        · simp only [hpr, if_false]
          have hw := walk_accesses_spec s.mem (s.mem p).priority fuel h
          cases hwalk : walk s.mem (s.mem p).priority fuel h with
          | error e =>
            constructor
            · intro e2 he
              have e3 : e = e2 := Except.error.inj he
              subst e3
              rfl
            · intro s2 he
              cases he
          | ok curr =>
            obtain ⟨log, hlog⟩ := hw.2 curr hwalk
            rw [hlog]
            constructor
            · intro e he
              cases he
            · intro s2 _
              exact ⟨_, rfl⟩
  · simp only [halg, if_false]
    cases hem : is_empty s.rq with
    | true => simp
    | false =>
      simp only [Bool.false_eq_true, if_false]
      cases ht : s.rq.tail with
      | none => simp
      | some t => simp

/-! ## Steps run without interruption are the handler calls -/

theorem steps_returned (fuel : Nat) : ∀ (n : Nat) (s : Sched),
    steps fuel n s .returned = .ok (s, .returned)
  | 0, _ => rfl
  | n + 1, s => by
    simp only [steps, step]
    exact steps_returned fuel n s

/-- The five steps of `schedule`, run without interruption, are `schedule`. -/
theorem steps_schedule (fuel cpu_id : Nat) (s : Sched) :
    final_state (steps fuel 5 s (.schedule_entry cpu_id)) = schedule cpu_id s := by
  cases hem : is_empty s.rq with
  | true =>
    simp [steps, step, final_state, schedule, hem]
  | false =>
    cases hh : s.rq.head with
    | none =>
      cases htl : s.rq.tail with
      | none =>
        have := (is_empty_iff s.rq).mpr ⟨hh, htl⟩
        rw [hem] at this
        cases this
      | some t =>
        cases ha : s.scheduler_algorithm <;>
          simp [steps, step, final_state, schedule, dispatch, dequeue, hem, hh, htl, ha]
    | some h =>
      cases htl : s.rq.tail with
      | none =>
        cases ha : s.scheduler_algorithm <;>
          simp [steps, step, final_state, schedule, dispatch, dequeue, hem, hh, htl, ha]
      | some t =>
        by_cases e : h = t
        · cases ha : s.scheduler_algorithm <;>
            simp [steps, step, final_state, schedule, dispatch, dequeue, hem, hh, htl, ha, e]
        · cases ha : s.scheduler_algorithm <;>
            simp [steps, step, final_state, schedule, dispatch, dequeue, hem, hh, htl, ha, e]

/-- A step followed by the five steps of `schedule`. -/
theorem steps_then_schedule (fuel cpu_id : Nat) (s s1 : Sched) (pc : Pc)
    (h : step fuel s pc = .ok (s1, .schedule_entry cpu_id)) :
    final_state (steps fuel 6 s pc) = schedule cpu_id s1 := by
  rw [← steps_schedule fuel cpu_id s1]
  simp only [steps, h]

/-- The steps of a handler call, run with no other thread in between, end in
the state the call returns when it runs alone, and fault when it faults. -/
theorem steps_alone (fuel : Nat) (s : Sched) (c : Call) :
    final_state (steps fuel 6 s (.entry c)) = call fuel s c := by
  cases c with
  | idle cpu =>
    cases hem : is_empty s.rq with
    | true => simp [steps, step, final_state, call, idle, hem]
    | false =>
      rw [steps_then_schedule fuel cpu s s _ (by simp [step, hem])]
      simp only [call, idle, hem]
      cases schedule cpu s <;> rfl
  | preempt cpu =>
    cases hc : s.current cpu with
    | none => simp [steps, step, final_state, call, preempt, hc]
    | some p =>
      cases he : enqueue fuel p { s with mem := set_state s.mem p .PROCESS_READY } with
      | error e => simp [steps, step, final_state, call, preempt, hc, he]
      | ok s1 =>
        rw [steps_then_schedule fuel cpu s s1 _ (by simp [step, hc, he])]
        simp [call, preempt, hc, he]
  | yield cpu =>
    cases hc : s.current cpu with
    | none => simp [steps, step, final_state, call, yield, hc]
    | some p =>
      rw [steps_then_schedule fuel cpu s { s with mem := set_state s.mem p .PROCESS_WAITING } _
        (by simp only [step, hc])]
      simp [call, yield, hc]
  | terminate cpu =>
    cases hc : s.current cpu with
    | none => simp [steps, step, final_state, call, terminate, hc]
    | some p =>
      rw [steps_then_schedule fuel cpu s { s with mem := set_state s.mem p .PROCESS_TERMINATED } _
        (by simp only [step, hc])]
      simp [call, terminate, hc]
  | wake_up p =>
    cases he : enqueue fuel p { s with mem := set_state s.mem p .PROCESS_READY } with
    | error e => simp [steps, step, final_state, call, wake_up, he]
    | ok s1 =>
      simp [steps, step, final_state, call, wake_up, he]

/-! ## The claims -/

/-- C1: under FCFS and Round-Robin, enqueuing pairwise distinct processes
into an empty ready queue (whatever their `next` links hold) and then
dequeuing as many times returns exactly those processes in enqueue order, and
the queue is empty afterwards. -/
theorem c1_fifo_order (fuel : Nat) (s : Sched) (ps : List Nat)
    (halg : s.scheduler_algorithm = .FCFS ∨ s.scheduler_algorithm = .RR)
    (hempty : is_empty s.rq = true) (hdistinct : ps.Nodup) :
    ∃ s1 s2, enqueue_all fuel ps s = .ok s1 ∧
      dequeue_n ps.length s1 = .ok (ps.map some, s2) ∧ is_empty s2.rq = true := by
  have hne : s.scheduler_algorithm ≠ .PR := by
    rcases halg with h | h <;> rw [h] <;> decide
  obtain ⟨s1, he, hq⟩ := enqueue_all_tail fuel ps s [] hne
    ((isQueue_nil _ _).mpr hempty) hdistinct (fun _ _ => List.not_mem_nil _)
  obtain ⟨s2, hd, he2⟩ := dequeue_n_all ps s1 (by simpa using hq)
  exact ⟨s1, s2, he, hd, he2⟩

/-- C1 at a concrete input: three processes whose `next` links all hold the
stale address 7, under Round-Robin. -/
theorem c1_fifo_order_witness :
    ∃ s1 s2,
      enqueue_all 0 [3, 1, 2]
        (init_sched .RR 2 (fun _ => { state := .PROCESS_READY, priority := 0, next := some 7 }))
        = .ok s1 ∧
      dequeue_n 3 s1 = .ok ([some 3, some 1, some 2], s2) ∧ is_empty s2.rq = true :=
  c1_fifo_order 0
    (init_sched .RR 2 (fun _ => { state := .PROCESS_READY, priority := 0, next := some 7 }))
    [3, 1, 2] (Or.inr rfl) rfl (by decide)

/-- C2 at the failing input: under the Priority discipline the processes 1, 2
and 3 (priorities 1 < 2 < 3, `NULL` links) are enqueued in this order into an
empty queue.  `tail` still points at process 1, so the first `dequeue` returns
it and empties the queue; the next two calls return `NULL`. -/
theorem c2_priority_tail_not_moved :
    ∃ s1 s2 s3,
      enqueue_all 10 [1, 2, 3]
        (init_sched .PR 0 (fresh_mem .PROCESS_READY (fun a => (a : Int)))) = .ok s1 ∧
      s1.rq = { head := some 1, tail := some 1 } ∧
      dequeue s1 = .ok (some 1, s2) ∧ is_empty s2.rq = true ∧
      dequeue_n 3 s1 = .ok ([some 1, none, none], s3) :=
  ⟨_, _, _, rfl, rfl, rfl, rfl, rfl⟩

/-- C3 at the failing input: under the Priority discipline process 0
(priority 2) and then the processes 1, 2 and 3 (all of priority 1) are
enqueued into an empty queue.  Process 3 arrives after process 2 and is
dequeued before it. -/
theorem c3_priority_insert_not_stable :
    ∃ s1 s2,
      enqueue_all 10 [0, 1, 2, 3]
        (init_sched .PR 0
          (fresh_mem .PROCESS_READY (fun a => if a = 0 then 2 else 1))) = .ok s1 ∧
      dequeue_n 4 s1 = .ok ([some 1, some 3, some 2, some 0], s2) :=
  ⟨_, _, rfl, rfl⟩

/-- C4: when the ready queue is `h :: rest`, `schedule cpu_id` leaves the
queue `rest`, sets the state of `h` to RUNNING, stores `h` in the slot of
`cpu_id`, keeps every other slot and every other record, and hands `h` to
`context_switch` for `cpu_id` (one call), under every discipline. -/
theorem c4_schedule_dispatches_head (cpu_id : Nat) (s : Sched) (h : Nat) (rest : List Nat)
    (hq : IsQueue s.mem s.rq (h :: rest)) :
    ∃ s2 slice, schedule cpu_id s = .ok s2 ∧ IsQueue s2.mem s2.rq rest ∧
      (s2.mem h).state = .PROCESS_RUNNING ∧ s2.current cpu_id = some h ∧
      (∀ c, c ≠ cpu_id → s2.current c = s.current c) ∧
      (∀ q, q ≠ h → s2.mem q = s.mem q) ∧
      s2.trace = s.trace ++ [.context_switch cpu_id (some h) slice] := by
  have hs := schedule_cons cpu_id s h rest hq
  have hq2 := (dequeue_cons s h rest hq).2
  refine ⟨_, _, hs, isQueue_set_state h _ hq2, by simp, by simp, ?_, ?_, rfl⟩
  · intro c hc; exact set_slot_of_ne _ _ hc
  · intro q hq; simp [set_state, hq]

/-- C4 at a concrete input: queue 4, 5 under the Priority discipline,
dispatched on CPU 1. -/
theorem c4_schedule_dispatches_head_witness :
    ∃ s2 slice,
      schedule 1
        { init_sched .PR 0 (fun a => { state := .PROCESS_READY, priority := a,
                                        next := if a = 4 then some 5 else none })
          with rq := { head := some 4, tail := some 5 } } = .ok s2 ∧
      IsQueue s2.mem s2.rq [5] ∧
      (s2.mem 4).state = .PROCESS_RUNNING ∧ s2.current 1 = some 4 ∧
      (∀ c, c ≠ 1 → s2.current c = none) ∧
      (∀ q, q ≠ 4 → s2.mem q = { state := .PROCESS_READY, priority := q,
                                  next := if q = 4 then some 5 else none }) ∧
      s2.trace = [] ++ [.context_switch 1 (some 4) slice] :=
  c4_schedule_dispatches_head 1
    { init_sched .PR 0 (fun a => { state := .PROCESS_READY, priority := a,
                                    next := if a = 4 then some 5 else none })
      with rq := { head := some 4, tail := some 5 } } 4 [5]
    ⟨rfl, rfl, ⟨rfl, trivial⟩, by decide⟩

/-- C5: when the ready queue is empty, `schedule cpu_id` clears the slot of
`cpu_id`, makes the single call `context_switch(cpu_id, NULL, -1)` and changes
neither the queue, nor another slot, nor any process record. -/
theorem c5_schedule_empty_queue (cpu_id : Nat) (s : Sched) (he : is_empty s.rq = true) :
    ∃ s2, schedule cpu_id s = .ok s2 ∧ s2.current cpu_id = none ∧
      s2.trace = s.trace ++ [.context_switch cpu_id none (-1)] ∧
      s2.rq = s.rq ∧ (∀ c, c ≠ cpu_id → s2.current c = s.current c) ∧
      s2.mem = s.mem ∧ s2.scheduler_algorithm = s.scheduler_algorithm ∧ s2.ts = s.ts := by
  refine ⟨_, schedule_nil cpu_id s he, by simp, rfl, rfl, ?_, rfl, rfl, rfl⟩
  intro c hc; exact set_slot_of_ne _ _ hc

/-- C5 at a concrete input: the initial state under Round-Robin, CPU 2. -/
theorem c5_schedule_empty_queue_witness :
    ∃ s2, schedule 2 (init_sched .RR 4 (fresh_mem .PROCESS_WAITING (fun _ => 0))) = .ok s2 ∧
      s2.current 2 = none ∧
      s2.trace = [] ++ [.context_switch 2 none (-1)] ∧
      s2.rq = { head := none, tail := none } ∧ (∀ c, c ≠ 2 → s2.current c = none) ∧
      s2.mem = fresh_mem .PROCESS_WAITING (fun _ => 0) ∧
      s2.scheduler_algorithm = .RR ∧ s2.ts = 4 :=
  c5_schedule_empty_queue 2 (init_sched .RR 4 (fresh_mem .PROCESS_WAITING (fun _ => 0))) rfl

/-- C7: under Round-Robin, when the slot of `cpu_id` holds a process `P` that
is not in the ready queue `l` (its `next` link is arbitrary), `preempt cpu_id`
appends `P` and dispatches the old head with time slice `ts`: from `h :: rs`
the queue becomes `rs ++ [P]` with `P` READY and `h` RUNNING in the slot; from
the empty queue `P` itself is dispatched again and the queue stays empty. -/
theorem c7_preempt_round_robin (fuel cpu_id : Nat) (s : Sched) (P : Nat) (l : List Nat)
    (halg : s.scheduler_algorithm = .RR) (hslot : s.current cpu_id = some P)
    (hq : IsQueue s.mem s.rq l) (hP : P ∉ l) :
    ∃ s2, preempt fuel cpu_id s = .ok s2 ∧
      match l with
      | [] => IsQueue s2.mem s2.rq [] ∧ s2.current cpu_id = some P ∧
          (s2.mem P).state = .PROCESS_RUNNING ∧
          s2.trace = s.trace ++ [.cond_signal, .context_switch cpu_id (some P) s.ts]
      | h :: rs => IsQueue s2.mem s2.rq (rs ++ [P]) ∧
          (s2.mem P).state = .PROCESS_READY ∧ (s2.mem h).state = .PROCESS_RUNNING ∧
          s2.current cpu_id = some h ∧
          s2.trace = s.trace ++ [.context_switch cpu_id (some h) s.ts] := by
  have hne : s.scheduler_algorithm ≠ .PR := by rw [halg]; decide
  obtain ⟨s1, he, hq1, _, ha1, hts1, hst1, _, htr1⟩ :=
    enqueue_tail fuel P { s with mem := set_state s.mem P .PROCESS_READY } l hne
      (isQueue_set_state P _ hq) hP
  have ha : s1.scheduler_algorithm = .RR := ha1.trans halg
  have hts : s1.ts = s.ts := hts1
  cases l with
  | nil =>
    have hq2 : IsQueue s1.mem s1.rq [P] := by simpa using hq1
    have hs := schedule_cons cpu_id s1 P [] hq2
    refine ⟨_, by simp [preempt, hslot, he, hs]; rfl, ?_⟩
    refine ⟨isQueue_set_state P _ (dequeue_cons s1 P [] hq2).2, by simp, by simp, ?_⟩
    simp [htr1, ha, hts]
  | cons h rs =>
    have hq2 : IsQueue s1.mem s1.rq (h :: (rs ++ [P])) := by simpa using hq1
    have hs := schedule_cons cpu_id s1 h (rs ++ [P]) hq2
    have hPh : P ≠ h := fun e => hP (e ▸ List.mem_cons_self _ _)
    refine ⟨_, by simp [preempt, hslot, he, hs]; rfl, ?_⟩
    refine ⟨isQueue_set_state h _ (dequeue_cons s1 h _ hq2).2, ?_, by simp, by simp, ?_⟩
    · simp [set_state_state_of_ne _ _ hPh, hst1]
    · simp [htr1, ha, hts]

/-- C7 at a concrete input: quantum 2, queue 4, 5, and process 9 on CPU 0 with
its `next` link still pointing at 4. -/
theorem c7_preempt_round_robin_witness :
    ∃ s2, preempt 0 0 running_example = .ok s2 ∧
      IsQueue s2.mem s2.rq [5, 9] ∧
      (s2.mem 9).state = .PROCESS_READY ∧ (s2.mem 4).state = .PROCESS_RUNNING ∧
      s2.current 0 = some 4 ∧
      s2.trace = [] ++ [.context_switch 0 (some 4) 2] :=
  c7_preempt_round_robin 0 0 running_example 9 [4, 5] rfl rfl
    ⟨rfl, rfl, ⟨rfl, trivial⟩, by decide⟩ (by decide)

/-- C10 at the failing input: under the Priority discipline the queue holds
process 1 (priority 1) and the WAITING process 2 (priority 2) is woken.
`wake_up` sets it READY and links it behind process 1, but `tail` still
points at process 1: the queue record represents no list that contains
process 2, and one `dequeue` empties the queue. -/
theorem c10_wake_up_priority_tail_not_moved :
    ∃ s2 s3, wake_up 10 (some 2) wake_up_example = .ok s2 ∧
      (s2.mem 2).state = .PROCESS_READY ∧ (s2.mem 1).next = some 2 ∧
      s2.rq = { head := some 1, tail := some 1 } ∧
      (∀ l, IsQueue s2.mem s2.rq l → 2 ∉ l) ∧
      dequeue s2 = .ok (some 1, s3) ∧ is_empty s3.rq = true := by
  refine ⟨_, _, rfl, rfl, rfl, rfl, ?_, rfl, rfl⟩
  intro l hl
  rw [isQueue_head_eq_tail hl rfl rfl]
  decide

/-- C11 at the failing input: under the Priority discipline with one CPU,
process 5 (priority 5) is RUNNING on CPU 0, a state reached within the
contract, and the WAITING process 1 (priority 1) is woken.  `wake_up` only enqueues: process 5 stays RUNNING in the
slot of CPU 0, process 1 waits READY in the queue, and the only effect recorded
is the signal on `queue_not_empty`; no `context_switch` is made. -/
theorem c11_wake_up_does_not_preempt :
    run_calls 5 [.wake_up 5, .idle 0] priority_start = some priority_one_cpu ∧
      contract priority_one_cpu (.wake_up 1) ∧
      priority_one_cpu.scheduler_algorithm = .PR ∧
      priority_one_cpu.current 0 = some 5 ∧
      (priority_one_cpu.mem 5).state = .PROCESS_RUNNING ∧
      (priority_one_cpu.mem 5).priority = 5 ∧
      (priority_one_cpu.mem 1).state = .PROCESS_WAITING ∧
      (priority_one_cpu.mem 1).priority = 1 ∧
      ∃ s2, wake_up 5 (some 1) priority_one_cpu = .ok s2 ∧
        s2.current 0 = some 5 ∧ (s2.mem 5).state = .PROCESS_RUNNING ∧
        (s2.mem 1).state = .PROCESS_READY ∧
        s2.rq = { head := some 1, tail := some 1 } ∧
        s2.trace = priority_one_cpu.trace ++ [.cond_signal] :=
  ⟨rfl, rfl, rfl, rfl, rfl, rfl, rfl, rfl, _, rfl, rfl, rfl, rfl, rfl, rfl⟩

/-- C12 at the failing input: the actions `race_actions` on `rr_start`.  Every
call is made within the contract.  `terminate(0)` and `terminate(1)` overlap
while the queue holds process 7 alone: thread 0 has read `removed` = process 7
and `head == tail` in `dequeue` (l.110-111, before the lock) when thread 1
runs its whole call and dispatches process 7 on CPU 1; thread 0 then runs on
and dispatches process 7 on CPU 0.  When both calls have returned, process 7
is in the slots of CPU 0 and of CPU 1. -/
theorem c12_overlapping_calls_share_a_process :
    (run_actions 0 (race_actions.take 40) rr_start).map (fun cfg => cfg.pcs 0) =
        some (.dequeue_locked 0 (some 7) true) ∧
      run_actions 0 race_actions rr_start = some race_reached ∧
      race_reached.pcs 0 = .returned ∧ race_reached.pcs 1 = .returned ∧
      race_reached.pcs 2 = .returned ∧
      race_reached.s.current 0 = some 7 ∧ race_reached.s.current 1 = some 7 :=
  ⟨rfl, rfl, rfl, rfl, rfl, rfl, rfl⟩

/-- C13 at the failing input: after `race_actions` process 7 is RUNNING in the
slots of CPU 0 and CPU 1.  CPU 0 calls `terminate` and CPU 1 calls `preempt`,
both within the contract.  The first step of thread 0 sets process 7
TERMINATED, and the first step of thread 1 then sets it READY: a change from
TERMINATED to READY, which is no edge of the state machine. -/
theorem c13_terminated_becomes_ready :
    run_actions 0 race_then_terminate rr_start = some race_terminated ∧
      race_terminated.pcs 1 = .entry (.preempt 1) ∧
      (race_terminated.s.mem 7).state = .PROCESS_TERMINATED ∧
      edge .PROCESS_TERMINATED .PROCESS_READY = false ∧
      ∃ cfg, act 0 race_terminated (.step 1) = some cfg ∧
        (cfg.s.mem 7).state = .PROCESS_READY :=
  ⟨rfl, rfl, rfl, rfl, _, rfl, rfl⟩

/-- C14 at the failing input: after `race_actions` process 7 is RUNNING in the
slots of CPU 0 and CPU 1.  CPU 0 calls `terminate`, within the contract, and
the call runs to its return.  No thread is inside a call then, and the slot
of CPU 1 holds process 7, whose state is TERMINATED. -/
theorem c14_slot_holds_terminated_process :
    ∃ cfg, run_actions 0 (race_actions ++ whole 0 (.terminate 0)) rr_start = some cfg ∧
      cfg.pcs 0 = .returned ∧ cfg.pcs 1 = .returned ∧ cfg.pcs 2 = .returned ∧
      cfg.s.current 1 = some 7 ∧ (cfg.s.mem 7).state = .PROCESS_TERMINATED :=
  ⟨_, rfl, rfl, rfl, rfl, rfl, rfl⟩

/-- C15 at the failing input: the calls `priority_calls` respect the contract
on `priority_start` and all return.  In the state they reach the queue holds
process 1, whose `next` link points at process 2, and the `next` link of
process 2 points at process 2 itself.  Waking the WAITING process 3
(priority 3) respects the contract, and its walk does not stop, whatever the
fuel. -/
theorem c15_wake_up_walks_forever :
    initial priority_start ∧
      run_calls 5 priority_calls priority_start = some priority_reached ∧
      Reachable priority_start priority_reached ∧
      priority_reached.rq = { head := some 1, tail := some 1 } ∧
      (priority_reached.mem 1).next = some 2 ∧ (priority_reached.mem 2).next = some 2 ∧
      contract priority_reached (.wake_up 3) ∧
      ∀ fuel, call fuel priority_reached (.wake_up 3) = .error .out_of_fuel := by
  refine ⟨⟨rfl, fun _ => rfl⟩, rfl,
    reachable_run_calls 5 priority_start priority_calls priority_start
      priority_reached Reachable.init rfl, rfl, rfl, rfl, rfl, ?_⟩
  have hw : ∀ fuel, walk (set_state priority_reached.mem 3 .PROCESS_READY)
      ((set_state priority_reached.mem 3 .PROCESS_READY) 3).priority fuel 1 =
      .error .out_of_fuel := by
    intro fuel
    cases fuel with
    | zero => rfl
    | succ n =>
      rw [walk_step _ _ 1 2 rfl (by decide)]
      exact walk_self_loop _ _ 2 rfl (by decide) n
  exact enqueue_walk_forever
    { priority_reached with mem := set_state priority_reached.mem 3 .PROCESS_READY }
    3 1 rfl rfl rfl (by decide) hw

/-- C16 at the failing input: under the Priority discipline the distinct
processes 1 and 2 (priorities 1 < 2, `NULL` links) are enqueued into an empty
queue and one `dequeue` is made, with `is_empty` false before it.  It returns
process 1, and `is_empty` is true afterwards although process 2 was enqueued
and has not been returned. -/
theorem c16_is_empty_with_process_left :
    ∃ s1 s2,
      enqueue_all 5 [1, 2]
        (init_sched .PR 0 (fresh_mem .PROCESS_READY (fun a => (a : Int)))) = .ok s1 ∧
      is_empty s1.rq = false ∧ dequeue s1 = .ok (some 1, s2) ∧
      is_empty s2.rq = true ∧ (s2.mem 1).next = some 2 :=
  ⟨_, _, rfl, rfl, rfl, rfl, rfl⟩

/-- C17 at two failing inputs, both with two idle CPUs and the one process 7,
every call within the contract.  In `idle_actions` both `idle` calls leave the
loop of l.190-192 with the queue not empty, and CPU 0 takes process 7; the
`schedule` of `idle(1)` then finds the queue empty and the call returns with
`context_switch(1, NULL, -1)`, no enqueue having been made since.  In
`idle_actions_late` thread 1 has also passed the test of l.150 before CPU 0
takes process 7; its `dequeue` then runs on the empty queue and returns
`NULL`, which `schedule` dereferences (l.166). -/
theorem c17_idle_runs_schedule_on_emptied_queue :
    (∃ cfg cfg2, run_actions 0 idle_actions rr_start = some cfg ∧
        cfg.pcs 1 = .schedule_entry 1 ∧ is_empty cfg.s.rq = true ∧
        run_actions 0 [.step 1, .step 1] cfg = some cfg2 ∧
        cfg2.pcs 1 = .returned ∧ is_empty cfg2.s.rq = true ∧
        cfg2.s.trace = cfg.s.trace ++ [.context_switch 1 none (-1)]) ∧
    (∃ cfg cfg2, run_actions 0 idle_actions_late rr_start = some cfg ∧
        cfg.pcs 1 = .dequeue_entry 1 ∧ is_empty cfg.s.rq = true ∧
        run_actions 0 [.step 1, .step 1] cfg = some cfg2 ∧
        cfg2.pcs 1 = .store 1 none ∧
        step 0 cfg2.s (cfg2.pcs 1) = .error .null_deref) :=
  ⟨⟨_, _, rfl, rfl, rfl, rfl, rfl, rfl, rfl⟩, ⟨_, _, rfl, rfl, rfl, rfl, rfl, rfl⟩⟩

/-- C18 at the failing input: with the arguments `<# CPUs> -p`, the form the
usage text gives, `main` starts the simulator with FCFS; it selects the
Priority discipline only when a fourth argument follows `-p`.  The forms
`<# CPUs>` and `<# CPUs> -r <time slice>` select FCFS and Round-Robin with
quantum `atoi` of the time slice. -/
theorem c18_priority_flag_needs_extra_argument (atoi : List Char → Int)
    (prog cpus slice : List Char) :
    main atoi [prog, cpus, ['-', 'p']] = .started .FCFS 0 cpus ∧
      main atoi [prog, cpus, ['-', 'p'], slice] = .started .PR 0 cpus ∧
      main atoi [prog, cpus] = .started .FCFS 0 cpus ∧
      main atoi [prog, cpus, ['-', 'r'], slice] = .started .RR (atoi slice) cpus :=
  ⟨rfl, rfl, rfl, rfl⟩

/-- C19: under every discipline, `enqueue` on an empty queue returns and makes
exactly one signal on `queue_not_empty`; on a queue that is not empty it
makes none. -/
theorem c19_signal_iff_empty (fuel p : Nat) (s : Sched) :
    (is_empty s.rq = true →
      ∃ s2, enqueue fuel p s = .ok s2 ∧ s2.trace = s.trace ++ [.cond_signal]) ∧
    (is_empty s.rq = false → ∀ s2, enqueue fuel p s = .ok s2 → s2.trace = s.trace) := by
  constructor
  · intro hem
    refine ⟨{ s with rq := { head := some p, tail := some p },
                     trace := s.trace ++ [.cond_signal] }, ?_, rfl⟩
    by_cases halg : s.scheduler_algorithm = .PR
    · simp only [enqueue, halg, hem, if_true]
    · simp only [enqueue, halg, hem, if_true, if_false]
  · intro hem s2 he
    unfold enqueue at he
    simp only [hem, Bool.false_eq_true, if_false] at he
    split at he
    · split at he
      · cases he
      · split at he
        · rw [← Except.ok.inj he]
        · split at he
          · cases he
          · rw [← Except.ok.inj he]
    · split at he
      · cases he
      · rw [← Except.ok.inj he]

/-- C19 at concrete inputs: an enqueue into the empty queue of
`priority_start`, and one into the queue 4, 5 of `running_example`. -/
theorem c19_signal_iff_empty_witness :
    (∃ s2, enqueue 0 1 priority_start = .ok s2 ∧
        s2.trace = priority_start.trace ++ [.cond_signal]) ∧
      (∃ s2, enqueue 0 9 running_example = .ok s2 ∧ s2.trace = running_example.trace) :=
  ⟨(c19_signal_iff_empty 0 1 priority_start).1 rfl,
    _, rfl, (c19_signal_iff_empty 0 9 running_example).2 rfl _ rfl⟩

/-- C20 at two failing inputs: the accesses of `enqueue` for process 9 on the
Round-Robin queue 4, 5 of `running_example`, and for process 2 on the Priority
queue of `wake_up_example`.  In both the read of `queue->head` by `is_empty`
comes before the mutex is taken, and in the Priority branch so do the reads
of the priority of the head and of the `next` link the walk follows. -/
theorem c20_reads_before_lock :
    enqueue_accesses 0 9 running_example =
        .ok [.read_head, .lock, .read_tail, .write_next 5, .read_tail, .read_next 5,
          .write_tail, .unlock] ∧
      reads_locked false [.read_head, .lock, .read_tail, .write_next 5, .read_tail,
        .read_next 5, .write_tail, .unlock] = false ∧
      enqueue_accesses 5 2 wake_up_example =
        .ok [.read_head, .read_head, .read_priority 1, .read_head, .read_next 1,
          .lock, .read_next 1, .write_next 2, .write_next 1, .unlock] ∧
      reads_locked false [.read_head, .read_head, .read_priority 1, .read_head,
        .read_next 1, .lock, .read_next 1, .write_next 2, .write_next 1, .unlock] = false :=
  ⟨rfl, rfl, rfl, rfl⟩

end Scheduler
